import Mathlib

/-! # Speculative execution benchmark (`main.go`): embedding and verified properties

A shallow embedding of the three cancellable workloads of `main.go`
(`SimularProofOfWork`, `EncontrarPrimos`, `CalcularTrazaDeProductoDeMatrices`)
and of the two execution modes (`ejecucionEspeculativa`, `ejecucionSecuencial`).

Conventions of the embedding.

* Go `int` values are `Int`, and `%` is Go's truncated remainder `Int.tmod`.
  The counters of the program (`nonce`, `i`, `j`, `k`) start at 0 or 2 and
  grow by one per iteration, and `j * j` stays below `i + 2 * j`, so a 64-bit
  `int` would need some `2^63` iterations to wrap; the integers are therefore
  taken unbounded.
* A `context.Context` is observed only through `select` on `ctx.Done()`.  Each
  workload polls at two places of its loop, the head of an iteration and the
  periodic check; a `Context` says, for each place and each value of the loop
  variable, whether the poll made there finds the token cancelled.  Each such
  poll is made at most once, so every behaviour of a real token is covered.
* A loop that may run forever takes a step budget (`fuel`); `Outcome.outOfFuel`
  says the budget ran out before the function returned.  Loops that are
  bounded by their input get a budget that is proved sufficient.
* `time.Duration` results are wall-clock readings.  The workloads' duration
  result is left out, and the execution modes read the durations they record
  from their environment.
* Memory is a resource of the run.  A `Runtime` says how large a string
  `strings.Repeat` gets and how large a dimension the two matrices may have;
  a request above that ends the program, as the run-time check of `make`
  (`makeslice: len out of range`) does for every request above `2^48` bytes.
  The small allocations of the loop bodies are taken to succeed.
* The execution modes return the values from which the CSV row is built;
  creating and appending to the file, and printing, are not part of the model.
* The library functions used (`sha256.Sum256`, `fmt.Sprintf`, `strings.Repeat`,
  `strings.HasPrefix`, `strconv.Itoa`) are written out after their
  documentation; `Sum256_abc` and `Sum256_two_blocks` check the hash against
  the test vectors of FIPS 180-4.
-/

namespace Tarea2

/-! ## Results of a Go call -/

/-- How a call of a Go function ends: it returns a value, it panics, or the
step budget given to the model is used up before it returns. -/
inductive Outcome (α : Type) where
  | returned (v : α)
  | panicked
  | outOfFuel
deriving DecidableEq, Repr

/-! ## Cancellation tokens -/

/-- The two places where a workload polls `ctx.Done()`: the `select` at the
head of each iteration and the periodic `select` behind the modulus test. -/
inductive PollSite where
  | loopHead
  | periodic
deriving DecidableEq, Repr

/-- A cancellation token as a workload sees it: `ctx site v` is `true` when the
poll at `site`, made while the loop variable equals `v`, finds `ctx.Done()` ready. -/
abbrev Context := PollSite → Int → Bool

/-- The token of `context.Background()`: never cancelled. -/
def Background : Context := fun _ _ => false

/-! ## Memory -/

/-- The run-time's `maxAlloc` on a 64-bit platform, `2^48` bytes: `make`
panics (`makeslice: len out of range`) when asked for more. -/
def maxAlloc : Nat := 281474976710656

/-- What the allocator grants in a run.  `maxString` is the largest number of
bytes of a string that `strings.Repeat` can build, `maxDim` the largest
dimension `n` for which `make([][]int, n)` and the `2 * n` rows
`make([]int, n)` can be allocated (`48 * n` bytes of slice headers and
`16 * n * n` bytes of entries).  Neither exceeds what `maxAlloc` allows, and a
string of 64 bytes, the size of the `hashStr` built in every iteration, can
always be built. -/
structure Runtime where
  maxString : Nat
  maxDim : Nat
  hash_le_maxString : 64 ≤ maxString
  maxString_le : maxString ≤ maxAlloc
  maxDim_le : 16 * maxDim * maxDim + 48 * maxDim ≤ maxAlloc

/-- A run-time that grants strings of up to 1000 bytes and dimensions up to
1000, for the instances below. -/
def smallRuntime : Runtime := ⟨1000, 1000, by decide, by decide, by decide⟩

/-! ## Library functions -/

/-- Go's `strings.Repeat(s, count)`; it panics (`none`) on a negative count
and when the result, of `count * len(s)` bytes, cannot be allocated. -/
def stringsRepeat (rt : Runtime) (s : String) (count : Int) : Option String :=
  if count < 0 ∨ rt.maxString < count.toNat * s.utf8ByteSize then none
  else some (String.mk (List.replicate count.toNat s.data).flatten)

/-- Go's `strings.HasPrefix(s, pre)`. -/
def stringsHasPrefix (s pre : String) : Bool :=
  pre.data.isPrefixOf s.data

/-- Decimal form of an integer: `strconv.Itoa` and the verb `%d`. -/
def Itoa (n : Int) : String :=
  if n < 0 then "-" ++ Nat.repr n.natAbs else Nat.repr n.natAbs

/-- The bytes of a Go string holding the text `s`: the conversion `[]byte(s)`. -/
def bytesOf (s : String) : List UInt8 :=
  s.data.flatMap String.utf8EncodeChar

/-! ### SHA-256 (FIPS 180-4), on 32-bit words held in `Nat` -/

/-- Word modulus `2^32`. -/
def word : Nat := 4294967296

/-- The round constants `K[0..63]`. -/
def roundConstants : List Nat :=
  [1116352408, 1899447441, 3049323471, 3921009573, 961987163, 1508970993, 2453635748,
   2870763221, 3624381080, 310598401, 607225278, 1426881987, 1925078388, 2162078206,
   2614888103, 3248222580, 3835390401, 4022224774, 264347078, 604807628, 770255983,
   1249150122, 1555081692, 1996064986, 2554220882, 2821834349, 2952996808, 3210313671,
   3336571891, 3584528711, 113926993, 338241895, 666307205, 773529912, 1294757372,
   1396182291, 1695183700, 1986661051, 2177026350, 2456956037, 2730485921, 2820302411,
   3259730800, 3345764771, 3516065817, 3600352804, 4094571909, 275423344, 430227734,
   506948616, 659060556, 883997877, 958139571, 1322822218, 1537002063, 1747873779,
   1955562222, 2024104815, 2227730452, 2361852424, 2428436474, 2756734187, 3204031479,
   3329325298]

/-- Rotate the 32-bit word `x` right by `n` bits. -/
def rotr (x n : Nat) : Nat := ((x >>> n) ||| (x <<< (32 - n))) % word

/-- Addition modulo `2^32`. -/
def add32 (a b : Nat) : Nat := (a + b) % word

/-- Bitwise complement of a 32-bit word. -/
def not32 (a : Nat) : Nat := word - 1 - a % word

def bigSigma0 (x : Nat) : Nat := rotr x 2 ^^^ rotr x 13 ^^^ rotr x 22
def bigSigma1 (x : Nat) : Nat := rotr x 6 ^^^ rotr x 11 ^^^ rotr x 25
def smallSigma0 (x : Nat) : Nat := rotr x 7 ^^^ rotr x 18 ^^^ (x >>> 3)
def smallSigma1 (x : Nat) : Nat := rotr x 17 ^^^ rotr x 19 ^^^ (x >>> 10)
def choose32 (x y z : Nat) : Nat := (x &&& y) ^^^ (not32 x &&& z)
def majority32 (x y z : Nat) : Nat := (x &&& y) ^^^ (x &&& z) ^^^ (y &&& z)

/-- The eight working words of the hash. -/
structure HashState where
  a : Nat
  b : Nat
  c : Nat
  d : Nat
  e : Nat
  f : Nat
  g : Nat
  h : Nat
deriving DecidableEq, Repr

/-- The initial hash value `H(0)`. -/
def initialHash : HashState :=
  ⟨1779033703, 3144134277, 1013904242, 2773480762, 1359893119, 2600822924, 528734635,
   1541459225⟩

/-- Extend the message schedule by `n` words; `w` holds the schedule so far,
latest word first. -/
def extendSchedule : Nat → List Nat → List Nat
  | 0, w => w
  | n + 1, w =>
    extendSchedule n
      (add32 (add32 (smallSigma1 (w.getD 1 0)) (w.getD 6 0))
          (add32 (smallSigma0 (w.getD 14 0)) (w.getD 15 0)) :: w)

/-- One round of the compression function, on the pair (constant, schedule word). -/
def compressRound (s : HashState) (kw : Nat × Nat) : HashState :=
  let t1 := add32 (add32 (add32 s.h (bigSigma1 s.e)) (add32 (choose32 s.e s.f s.g) kw.1)) kw.2
  let t2 := add32 (bigSigma0 s.a) (majority32 s.a s.b s.c)
  ⟨add32 t1 t2, s.a, s.b, s.c, add32 s.d t1, s.e, s.f, s.g⟩

/-- Big-endian 32-bit words of a byte sequence. -/
def wordsOfBytes : List Nat → List Nat
  | b0 :: b1 :: b2 :: b3 :: rest => (((b0 * 256 + b1) * 256 + b2) * 256 + b3) :: wordsOfBytes rest
  | _ => []

/-- Process one 64-byte block. -/
def compressBlock (s : HashState) (block : List Nat) : HashState :=
  let w := (extendSchedule 48 (wordsOfBytes block).reverse).reverse
  let r := (roundConstants.zip w).foldl compressRound s
  ⟨add32 s.a r.a, add32 s.b r.b, add32 s.c r.c, add32 s.d r.d,
   add32 s.e r.e, add32 s.f r.f, add32 s.g r.g, add32 s.h r.h⟩

/-- Process the first `n` 64-byte blocks of `bytes`. -/
def compressBlocks : Nat → HashState → List Nat → HashState
  | 0, s, _ => s
  | n + 1, s, bytes => compressBlocks n (compressBlock s (bytes.take 64)) (bytes.drop 64)

/-- The `k` low-order bytes of `n`, most significant first. -/
def bigEndian (n : Nat) : Nat → List Nat
  | 0 => []
  | k + 1 => (n >>> (8 * k)) % 256 :: bigEndian n k

/-- Message padding: a `0x80` byte, zero bytes up to 56 modulo 64, and the bit
length as a 64-bit big-endian number. -/
def padMessage (msg : List Nat) : List Nat :=
  msg ++ [128] ++ List.replicate ((119 - msg.length % 64) % 64) 0
    ++ bigEndian ((8 * msg.length) % 2 ^ 64) 8

/-- Go's `sha256.Sum256`: the 32-byte digest of `msg`. -/
def Sum256 (msg : List UInt8) : List Nat :=
  let padded := padMessage (msg.map UInt8.toNat)
  let s := compressBlocks (padded.length / 64) initialHash padded
  [s.a, s.b, s.c, s.d, s.e, s.f, s.g, s.h].flatMap (fun w => bigEndian w 4)

/-- The lowercase hexadecimal digit of `n < 16`. -/
def hexDigit (n : Nat) : Char :=
  "0123456789abcdef".data.getD n '0'

/-- Go's `fmt.Sprintf("%x", digest)`: two lowercase hex digits per byte. -/
def hexString (digest : List Nat) : String :=
  String.mk (digest.flatMap fun b => [hexDigit (b / 16), hexDigit (b % 16)])

/-! ## Workload A: `SimularProofOfWork` -/

/-- The value of `hashStr` in the iteration whose counter is `nonce`:
`fmt.Sprintf("%x", sha256.Sum256([]byte(fmt.Sprintf("%s%d", data, nonce))))`. -/
def hashStrAt (data : List UInt8) (nonce : Int) : String :=
  hexString (Sum256 (data ++ bytesOf (Itoa nonce)))

/-- The `for` loop of `SimularProofOfWork`, started with counter `nonce`. -/
def SimularProofOfWorkLoop (ctx : Context) (data : List UInt8) (targetPrefix : String) :
    Nat → Int → Outcome (String × Int)
  | 0, _ => .outOfFuel
  | fuel + 1, nonce =>
    if ctx .loopHead nonce then .returned ("", -1)
    else
      let hashStr := hashStrAt data nonce
      if stringsHasPrefix hashStr targetPrefix then .returned (hashStr, nonce)
      else
        let nonce := nonce + 1
        if nonce.tmod 100000 == 0 && ctx .periodic nonce then .returned ("", -1)
        else SimularProofOfWorkLoop ctx data targetPrefix fuel nonce

/-- `SimularProofOfWork(ctx, data, dificultad)`: the returned hash and nonce. -/
def SimularProofOfWork (rt : Runtime) (ctx : Context) (data : List UInt8) (dificultad : Int)
    (fuel : Nat) : Outcome (String × Int) :=
  match stringsRepeat rt "0" dificultad with
  | none => .panicked
  | some targetPrefix => SimularProofOfWorkLoop ctx data targetPrefix fuel 0

/-- The loop of `SimularProofOfWork` with a log: `tested` lists, in order, the
counter values whose hash has been computed.  The first component is the
result of `SimularProofOfWorkLoop` (see `SimularProofOfWorkTracedLoop_fst`). -/
def SimularProofOfWorkTracedLoop (ctx : Context) (data : List UInt8) (targetPrefix : String) :
    Nat → Int → List Int → Outcome (String × Int) × List Int
  | 0, _, tested => (.outOfFuel, tested)
  | fuel + 1, nonce, tested =>
    if ctx .loopHead nonce then (.returned ("", -1), tested)
    else
      let hashStr := hashStrAt data nonce
      let tested := tested ++ [nonce]
      if stringsHasPrefix hashStr targetPrefix then (.returned (hashStr, nonce), tested)
      else
        let nonce := nonce + 1
        if nonce.tmod 100000 == 0 && ctx .periodic nonce then (.returned ("", -1), tested)
        else SimularProofOfWorkTracedLoop ctx data targetPrefix fuel nonce tested

/-- `SimularProofOfWork` together with the list of counter values it hashed. -/
def SimularProofOfWorkTraced (rt : Runtime) (ctx : Context) (data : List UInt8)
    (dificultad : Int) (fuel : Nat) : Outcome (String × Int) × List Int :=
  match stringsRepeat rt "0" dificultad with
  | none => (.panicked, [])
  | some targetPrefix => SimularProofOfWorkTracedLoop ctx data targetPrefix fuel 0 []

/-! ## Workload B: `EncontrarPrimos` -/

/-- The inner loop `for j := 2; j*j <= i; j++`, started at `j`: the final value
of `isPrime`.  `none` says the step budget ran out. -/
def isPrimeLoop (i : Int) : Nat → Int → Option Bool
  | 0, _ => none
  | fuel + 1, j =>
    if j * j ≤ i then
      if i.tmod j == 0 then some false
      else isPrimeLoop i fuel (j + 1)
    else some true

/-- The loop `for i := 2; i <= max; i++` of `EncontrarPrimos`, started at `i`
with the slice `primes`. -/
def EncontrarPrimosLoop (ctx : Context) (max : Int) : Nat → Int → List Int → Outcome (List Int)
  | 0, _, _ => .outOfFuel
  | fuel + 1, i, primes =>
    if i ≤ max then
      if ctx .loopHead i then .returned primes
      else
        match isPrimeLoop i i.toNat 2 with
        | none => .outOfFuel
        | some isPrime =>
          let primes := if isPrime then primes ++ [i] else primes
          if i.tmod 1000 == 0 && ctx .periodic i then .returned primes
          else EncontrarPrimosLoop ctx max fuel (i + 1) primes
    else .returned primes

/-- `EncontrarPrimos(ctx, max)`: the returned slice.  The loop makes at most
`max - 1` iterations and one more test of the loop condition, so the budget is
never used up (`EncontrarPrimos_returns`). -/
def EncontrarPrimos (ctx : Context) (max : Int) : Outcome (List Int) :=
  EncontrarPrimosLoop ctx max (max.toNat + 1) 2 []

/-! ## Decision oracle: `CalcularTrazaDeProductoDeMatrices` -/

/-- The inner loop `for k := 0; k < n; k++ { sum += m1[i][k] * m2[k][i] }`,
started at `k` with the value `sum`. -/
def rowTimesColumn (n : Int) (m1 m2 : Int → Int → Int) (i : Int) : Nat → Int → Int → Outcome Int
  | 0, _, _ => .outOfFuel
  | fuel + 1, k, sum =>
    if k < n then rowTimesColumn n m1 m2 i fuel (k + 1) (sum + m1 i k * m2 k i)
    else .returned sum

/-- The loop `for i := 0; i < n; i++` that accumulates the trace, started at
row `i` with the value `trace`. -/
def CalcularTrazaLoop (ctx : Context) (n : Int) (m1 m2 : Int → Int → Int) :
    Nat → Int → Int → Outcome Int
  | 0, _, _ => .outOfFuel
  | fuel + 1, i, trace =>
    if i < n then
      if ctx .loopHead i then .returned trace
      else
        match rowTimesColumn n m1 m2 i (n.toNat + 1) 0 0 with
        | .returned sum =>
          let trace := trace + sum
          if i.tmod 10 == 0 && ctx .periodic i then .returned trace
          else CalcularTrazaLoop ctx n m1 m2 fuel (i + 1) trace
        | .panicked => .panicked
        | .outOfFuel => .outOfFuel
    else .returned trace

/-- `CalcularTrazaDeProductoDeMatrices(ctx, n)`: the returned trace, where `m1`
and `m2` are the two matrices the function has filled with `rand.Intn(10)`
(`m1 i j` is `m1[i][j]`).  `make([][]int, n)` panics for a negative `n`, and
the program ends when the matrices cannot be allocated; both happen before
the first poll of `ctx`.  Both loops are bounded by `n`, so the budgets are
never used up (`CalcularTraza_returns`). -/
def CalcularTrazaDeProductoDeMatrices (rt : Runtime) (ctx : Context) (n : Int)
    (m1 m2 : Int → Int → Int) : Outcome Int :=
  if n < 0 ∨ rt.maxDim < n.toNat then .panicked
  else CalcularTrazaLoop ctx n m1 m2 (n.toNat + 1) 0 0

/-- The trace of the matrix product, in the words of the specification: the
sum over `i` of row `i` of the first matrix times column `i` of the second,
for the `n × n` matrices with entries `m1 i k` and `m2 k i`. -/
def traceOfProduct (n : Nat) (m1 m2 : Int → Int → Int) : Int :=
  Matrix.trace
    ((Matrix.of fun (i k : Fin n) => m1 i k) * (Matrix.of fun (k i : Fin n) => m2 k i))

/-- The sum over the rows `i < r` of row `i` of `m1` times column `i` of `m2`. -/
def partialTrace (n r : Nat) (m1 m2 : Int → Int → Int) : Int :=
  ∑ i in Finset.range r, ∑ k in Finset.range n, m1 i k * m2 k i

/-! ## Execution modes -/

/-- The message a branch-A goroutine sends on `chA`. -/
structure resA where
  hash : String
  nonce : Int
  dur : Int
deriving DecidableEq, Repr

/-- The message a branch-B goroutine sends on `chB`. -/
structure resB where
  primesCount : Int
  dur : Int
deriving DecidableEq, Repr

/-- The values a run records (the local variables from which the CSV row is
built); durations are in nanoseconds, as `time.Duration`. -/
structure RunRecord where
  runID : Int
  mode : String
  trace : Int
  chosen : String
  tTrace : Int
  tA : Int
  tB : Int
  total : Int
  extra : String
deriving DecidableEq, Repr

/-- The helper `ms`: a duration as whole milliseconds in decimal. -/
def ms (d : Int) : String := Itoa (d.tdiv 1000000)

/-- The CSV row written for a run. -/
def csvRow (r : RunRecord) : List String :=
  [Itoa r.runID, r.mode, Itoa r.trace, r.chosen, ms r.tTrace, ms r.tA, ms r.tB, ms r.total,
   r.extra]

/-- What a speculative run takes from its scheduler and its clock.
`stepsA` is the number of iterations the goroutine of branch A makes before
the read of `chA` ends (the blocking read with the 60-second timer when A is
chosen, the non-blocking salvage read when B is chosen), `ctxA` is what its
polls of `ctxA` find once `cancelA()` has been called, and `durA` the
duration it measures.  `arrivedB` says whether the goroutine of branch B
has sent its result when the read of `chB` ends, `ctxB` is what its polls
find once `cancelB()` has been called, and `durB` the duration it measures.
`tTrace` is the duration the oracle goroutine stored, `total` is
`time.Since(startGlobal)`. -/
structure SpecEnv where
  tTrace : Int
  total : Int
  stepsA : Nat
  ctxA : Context
  durA : Int
  arrivedB : Bool
  ctxB : Context
  durB : Int

/-- What the read of `chA` delivers: the message of the goroutine
`chA <- resA{hash, nonce, d}` when `SimularProofOfWork` has returned within
`steps` iterations, nothing (`none`) otherwise.  A panic in the goroutine
ends the program. -/
def readChA (rt : Runtime) (ctx : Context) (powData : List UInt8) (powDiff : Int) (steps : Nat)
    (dur : Int) : Outcome (Option resA) :=
  match SimularProofOfWork rt ctx powData powDiff steps with
  | .returned (hash, nonce) => .returned (some ⟨hash, nonce, dur⟩)
  | .outOfFuel => .returned none
  | .panicked => .panicked

/-- What the read of `chB` delivers: the message of the goroutine
`chB <- resB{len(primes), d}` when it has arrived, nothing (`none`) otherwise. -/
def readChB (ctx : Context) (primesMax : Int) (arrived : Bool) (dur : Int) :
    Outcome (Option resB) :=
  match EncontrarPrimos ctx primesMax with
  | .returned primes => .returned (if arrived then some ⟨primes.length, dur⟩ else none)
  | .outOfFuel => .outOfFuel
  | .panicked => .panicked

/-- `ejecucionEspeculativa`: the record of the run.  The oracle runs under
`traceCtx`, and the chosen branch under its own token; both tokens are
cancelled only after the record is written, so these two run as under a
token that is never cancelled.  The losing branch runs under a token that
`cancelA()` or `cancelB()` cancels at the decision. -/
def ejecucionEspeculativa (rt : Runtime) (runID n umbral : Int) (powData : List UInt8)
    (powDiff primesMax : Int) (m1 m2 : Int → Int → Int) (env : SpecEnv) : Outcome RunRecord :=
  match CalcularTrazaDeProductoDeMatrices rt Background n m1 m2 with
  | .returned trace =>
    if trace ≥ umbral then
      match readChA rt Background powData powDiff env.stepsA env.durA,
          readChB env.ctxB primesMax env.arrivedB env.durB with
      | .returned fromA, .returned fromB =>
        let (tA, extra) :=
          match fromA with
          | some r => (r.dur, if r.nonce ≥ 0 then "nonce=" ++ Itoa r.nonce else "A_cancelled")
          | none => (0, "timeout_waiting_A")
        let tB :=
          match fromB with
          | some rB => rB.dur
          | none => 0
        .returned ⟨runID, "spec", trace, "A", env.tTrace, tA, tB, env.total, extra⟩
      | .panicked, _ => .panicked
      | _, .panicked => .panicked
      | _, _ => .outOfFuel
    else
      match readChA rt env.ctxA powData powDiff env.stepsA env.durA,
          readChB Background primesMax env.arrivedB env.durB with
      | .returned fromA, .returned fromB =>
        let (tB, extra) :=
          match fromB with
          | some r => (r.dur, "primes=" ++ Itoa r.primesCount)
          | none => (0, "timeout_waiting_B")
        let tA :=
          match fromA with
          | some rA => rA.dur
          | none => 0
        .returned ⟨runID, "spec", trace, "B", env.tTrace, tA, tB, env.total, extra⟩
      | .panicked, _ => .panicked
      | _, .panicked => .panicked
      | _, _ => .outOfFuel
  | .panicked => .panicked
  | .outOfFuel => .outOfFuel

/-- The record built by the block `if trace >= umbral { ... }` of
`ejecucionEspeculativa` from what the two reads deliver; used to state
`ejecucionEspeculativa_cases`. -/
def recordChosenA (runID trace : Int) (env : SpecEnv) (fromA : Option resA)
    (fromB : Option resB) : RunRecord :=
  ⟨runID, "spec", trace, "A", env.tTrace,
    (match fromA with
      | some r => (r.dur, if r.nonce ≥ 0 then "nonce=" ++ Itoa r.nonce else "A_cancelled")
      | none => (0, "timeout_waiting_A")).1,
    (match fromB with
      | some rB => rB.dur
      | none => 0),
    env.total,
    (match fromA with
      | some r => (r.dur, if r.nonce ≥ 0 then "nonce=" ++ Itoa r.nonce else "A_cancelled")
      | none => (0, "timeout_waiting_A")).2⟩

/-- The record built by the block `else { ... }` of `ejecucionEspeculativa`
from what the two reads deliver; used to state `ejecucionEspeculativa_cases`. -/
def recordChosenB (runID trace : Int) (env : SpecEnv) (fromA : Option resA)
    (fromB : Option resB) : RunRecord :=
  ⟨runID, "spec", trace, "B", env.tTrace,
    (match fromA with
      | some rA => rA.dur
      | none => 0),
    (match fromB with
      | some r => (r.dur, "primes=" ++ Itoa r.primesCount)
      | none => (0, "timeout_waiting_B")).1,
    env.total,
    (match fromB with
      | some r => (r.dur, "primes=" ++ Itoa r.primesCount)
      | none => (0, "timeout_waiting_B")).2⟩

/-- The clock readings of a sequential run: the oracle's duration, the
duration returned by the branch that ran, and `time.Since(startTotal)`. -/
structure SeqClock where
  tTrace : Int
  dBranch : Int
  total : Int

/-- `ejecucionSecuencial`: the record of the run; `fuel` is the step budget of
`SimularProofOfWork`. -/
def ejecucionSecuencial (rt : Runtime) (runID n umbral : Int) (powData : List UInt8)
    (powDiff primesMax : Int) (m1 m2 : Int → Int → Int) (clock : SeqClock) (fuel : Nat) :
    Outcome RunRecord :=
  match CalcularTrazaDeProductoDeMatrices rt Background n m1 m2 with
  | .returned trace =>
    if trace ≥ umbral then
      match SimularProofOfWork rt Background powData powDiff fuel with
      | .returned (_, nonce) =>
        .returned ⟨runID, "seq", trace, "A", clock.tTrace, clock.dBranch, 0, clock.total,
          if nonce ≥ 0 then "nonce=" ++ Itoa nonce else "A_cancelled"⟩
      | .panicked => .panicked
      | .outOfFuel => .outOfFuel
    else
      match EncontrarPrimos Background primesMax with
      | .returned primes =>
        .returned ⟨runID, "seq", trace, "B", clock.tTrace, 0, clock.dBranch, clock.total,
          "primes=" ++ Itoa primes.length⟩
      | .panicked => .panicked
      | .outOfFuel => .outOfFuel
  | .panicked => .panicked
  | .outOfFuel => .outOfFuel

/-! # Theorems -/

/-! ## Library facts -/

theorem stringsRepeat_zeros (rt : Runtime) (d : Int) (hd : 0 ≤ d) (hfit : d ≤ rt.maxString) :
    stringsRepeat rt "0" d = some (String.mk (List.replicate d.toNat '0')) := by
  have hlen : ("0" : String).utf8ByteSize = 1 := rfl
  have h : ¬ (d < 0 ∨ rt.maxString < d.toNat * ("0" : String).utf8ByteSize) := by
    rw [hlen]
    omega
  have hflat : ∀ n : Nat, (List.replicate n ['0']).flatten = List.replicate n '0' := by
    intro n
    induction n with
    | zero => rfl
    | succ n ih => simp [List.replicate_succ, ih]
  simp only [stringsRepeat, if_neg h]
  exact congrArg some (congrArg String.mk (hflat d.toNat))

/-- `strings.Repeat("0", d)` panics for a negative count and for a count that
is too large to allocate. -/
theorem stringsRepeat_none (rt : Runtime) (d : Int) (h : d < 0 ∨ (rt.maxString : Int) < d) :
    stringsRepeat rt "0" d = none := by
  have hlen : ("0" : String).utf8ByteSize = 1 := rfl
  have h' : d < 0 ∨ rt.maxString < d.toNat * ("0" : String).utf8ByteSize := by
    rw [hlen]
    omega
  simp only [stringsRepeat, if_pos h']

/-- No count above `2^48` can be allocated, whatever the run-time. -/
theorem maxString_lt_of_maxAlloc_lt (rt : Runtime) (d : Int) (h : (maxAlloc : Int) < d) :
    (rt.maxString : Int) < d := by
  have := rt.maxString_le
  omega

theorem stringsHasPrefix_iff (s pre : String) :
    stringsHasPrefix s pre = true ↔ pre.data <+: s.data := by
  simp [stringsHasPrefix]

theorem bigEndian_length (n k : Nat) : (bigEndian n k).length = k := by
  induction k with
  | zero => rfl
  | succ k ih => simp [bigEndian, ih]

/-- The digest of `sha256.Sum256` has 32 bytes, as its Go type `[32]byte` says. -/
theorem Sum256_length (msg : List UInt8) : (Sum256 msg).length = 32 := by
  simp [Sum256, List.flatMap, bigEndian_length]

theorem hexString_length (digest : List Nat) :
    (hexString digest).data.length = 2 * digest.length := by
  unfold hexString
  induction digest with
  | nil => rfl
  | cons b bs ih =>
    simp only [List.flatMap_cons, List.length_append, List.length_cons, List.length_nil] at ih ⊢
    omega

/-- Every `hashStr` of the loop has exactly 64 characters. -/
theorem hashStrAt_length (data : List UInt8) (nonce : Int) :
    (hashStrAt data nonce).data.length = 64 := by
  rw [hashStrAt, hexString_length, Sum256_length]

/-- A prefix of more than 64 zeros is a prefix of no `hashStr`. -/
theorem no_long_prefix (data : List UInt8) (nonce : Int) (k : Nat) (hk : 64 < k) :
    stringsHasPrefix (hashStrAt data nonce) (String.mk (List.replicate k '0')) = false := by
  rw [Bool.eq_false_iff]
  intro h
  have hp := (stringsHasPrefix_iff _ _).mp h
  have hle := hp.length_le
  rw [hashStrAt_length] at hle
  simp at hle
  omega

set_option maxRecDepth 100000 in
/-- The one-block test vector of FIPS 180-4: the digest of `"abc"`. -/
theorem Sum256_abc :
    hexString (Sum256 (bytesOf "abc")) =
      "ba7816bf8f01cfea414140de5dae2223b00361a396177a9cb410ff61f20015ad" := by
  decide!

set_option maxRecDepth 100000 in
/-- The two-block test vector of FIPS 180-4 (a message of 56 bytes). -/
theorem Sum256_two_blocks :
    hexString (Sum256 (bytesOf "abcdbcdecdefdefgefghfghighijhijkijkljklmklmnlmnomnopnopq")) =
      "248d6a61d20638b8e5c026930c3e6039a33ce45964ff2167f6ecedd419db06c1" := by
  decide!

/-! ## `SimularProofOfWork` -/

theorem SimularProofOfWork_unfold (rt : Runtime) (ctx : Context) (data : List UInt8) (d : Int)
    (hd : 0 ≤ d) (hfit : d ≤ rt.maxString) (fuel : Nat) :
    SimularProofOfWork rt ctx data d fuel =
      SimularProofOfWorkLoop ctx data (String.mk (List.replicate d.toNat '0')) fuel 0 := by
  simp [SimularProofOfWork, stringsRepeat_zeros rt d hd hfit]

/-- `SimularProofOfWork` panics before its loop when `strings.Repeat` does. -/
theorem SimularProofOfWork_panicked (rt : Runtime) (ctx : Context) (data : List UInt8) (d : Int)
    (fuel : Nat) (h : d < 0 ∨ (rt.maxString : Int) < d) :
    SimularProofOfWork rt ctx data d fuel = .panicked := by
  simp [SimularProofOfWork, stringsRepeat_none rt d h]

/-- When `SimularProofOfWork` does not panic, the target prefix was allocated. -/
theorem SimularProofOfWork_fits (rt : Runtime) (ctx : Context) (data : List UInt8) (d : Int)
    (fuel : Nat) (h : SimularProofOfWork rt ctx data d fuel ≠ .panicked) :
    0 ≤ d ∧ d ≤ rt.maxString := by
  by_contra hcon
  apply h
  apply SimularProofOfWork_panicked
  omega

/-- Whatever the loop returns is either the cancellation sentinel or a counter
that passes the prefix test, with its hash, all counters before it failing. -/
theorem loop_returned (ctx : Context) (data : List UInt8) (tp : String) :
    ∀ (fuel : Nat) (nonce : Int) (hash : String) (n : Int),
      SimularProofOfWorkLoop ctx data tp fuel nonce = .returned (hash, n) →
      (hash = "" ∧ n = -1) ∨
      (nonce ≤ n ∧ hash = hashStrAt data n ∧ stringsHasPrefix (hashStrAt data n) tp = true ∧
        ∀ j : Int, nonce ≤ j → j < n → stringsHasPrefix (hashStrAt data j) tp = false) := by
  intro fuel
  induction fuel with
  | zero => intro nonce hash n h; simp [SimularProofOfWorkLoop] at h
  | succ fuel ih =>
    intro nonce hash n h
    rw [SimularProofOfWorkLoop] at h
    by_cases hc : ctx .loopHead nonce = true
    · rw [if_pos hc] at h
      injection h with h
      injection h with h1 h2
      exact Or.inl ⟨h1.symm, h2.symm⟩
    · rw [if_neg hc] at h
      simp only at h
      by_cases ht : stringsHasPrefix (hashStrAt data nonce) tp = true
      · rw [if_pos ht] at h
        injection h with h
        injection h with h1 h2
        subst h2
        refine Or.inr ⟨le_refl _, h1.symm, ht, ?_⟩
        intro j h1 h2
        omega
      · rw [if_neg ht] at h
        by_cases hp : ((nonce + 1).tmod 100000 == 0 && ctx .periodic (nonce + 1)) = true
        · rw [if_pos hp] at h
          injection h with h
          injection h with h1 h2
          exact Or.inl ⟨h1.symm, h2.symm⟩
        · rw [if_neg hp] at h
          rcases ih (nonce + 1) hash n h with h' | ⟨h1, h2, h3, h4⟩
          · exact Or.inl h'
          · refine Or.inr ⟨by omega, h2, h3, ?_⟩
            intro j hj1 hj2
            by_cases hj : j = nonce
            · subst hj
              simpa using ht
            · exact h4 j (by omega) hj2

/-- Under a token that is never cancelled the loop never returns the sentinel. -/
theorem loop_background_returned (data : List UInt8) (tp : String) :
    ∀ (fuel : Nat) (nonce : Int) (hash : String) (n : Int),
      SimularProofOfWorkLoop Background data tp fuel nonce = .returned (hash, n) →
      nonce ≤ n ∧ hash = hashStrAt data n ∧ stringsHasPrefix (hashStrAt data n) tp = true ∧
        ∀ j : Int, nonce ≤ j → j < n → stringsHasPrefix (hashStrAt data j) tp = false := by
  intro fuel
  induction fuel with
  | zero => intro nonce hash n h; simp [SimularProofOfWorkLoop] at h
  | succ fuel ih =>
    intro nonce hash n h
    rw [SimularProofOfWorkLoop] at h
    simp only [Background, Bool.false_eq_true, if_false, Bool.and_false] at h
    by_cases ht : stringsHasPrefix (hashStrAt data nonce) tp = true
    · rw [if_pos ht] at h
      injection h with h
      injection h with h1 h2
      subst h2
      exact ⟨le_refl _, h1.symm, ht, fun j h1 h2 => by omega⟩
    · rw [if_neg ht] at h
      obtain ⟨h1, h2, h3, h4⟩ := ih (nonce + 1) hash n h
      refine ⟨by omega, h2, h3, ?_⟩
      intro j hj1 hj2
      by_cases hj : j = nonce
      · subst hj
        simpa using ht
      · exact h4 j (by omega) hj2

/-- Under a token that is never cancelled the loop returns the first counter
that passes the test, once the budget reaches it. -/
theorem loop_background_finds (data : List UInt8) (tp : String) (n : Int)
    (hn : stringsHasPrefix (hashStrAt data n) tp = true) :
    ∀ (fuel : Nat) (nonce : Int), nonce ≤ n →
      (∀ j : Int, nonce ≤ j → j < n → stringsHasPrefix (hashStrAt data j) tp = false) →
      (n - nonce).toNat < fuel →
      SimularProofOfWorkLoop Background data tp fuel nonce = .returned (hashStrAt data n, n) := by
  intro fuel
  induction fuel with
  | zero => intro nonce _ _ h; omega
  | succ fuel ih =>
    intro nonce hle hfail hfuel
    rw [SimularProofOfWorkLoop]
    simp only [Background, Bool.false_eq_true, if_false, Bool.and_false]
    by_cases heq : nonce = n
    · subst heq
      rw [if_pos hn]
    · have hlt : nonce < n := lt_of_le_of_ne hle heq
      have := hfail nonce (le_refl _) hlt
      rw [this]
      simp only [Bool.false_eq_true, if_false]
      apply ih (nonce + 1) (by omega) (fun j h1 h2 => hfail j (by omega) h2)
      omega

/-- Under a token that is never cancelled the loop runs out of any budget
when no counter passes the test. -/
theorem loop_background_diverges (data : List UInt8) (tp : String)
    (hnone : ∀ j : Int, stringsHasPrefix (hashStrAt data j) tp = false) :
    ∀ (fuel : Nat) (nonce : Int),
      SimularProofOfWorkLoop Background data tp fuel nonce = .outOfFuel := by
  intro fuel
  induction fuel with
  | zero => intro nonce; rfl
  | succ fuel ih =>
    intro nonce
    rw [SimularProofOfWorkLoop]
    simp only [Background, Bool.false_eq_true, if_false, Bool.and_false, hnone nonce]
    exact ih (nonce + 1)

/-- The log does not change the result: the first component of the traced
loop is the loop of `SimularProofOfWork`. -/
theorem SimularProofOfWorkTracedLoop_fst (ctx : Context) (data : List UInt8) (tp : String) :
    ∀ (fuel : Nat) (nonce : Int) (tested : List Int),
      (SimularProofOfWorkTracedLoop ctx data tp fuel nonce tested).1 =
        SimularProofOfWorkLoop ctx data tp fuel nonce := by
  intro fuel
  induction fuel with
  | zero => intro nonce tested; rfl
  | succ fuel ih =>
    intro nonce tested
    rw [SimularProofOfWorkTracedLoop, SimularProofOfWorkLoop]
    by_cases hc : ctx .loopHead nonce = true
    · simp only [if_pos hc]
    · simp only [if_neg hc]
      by_cases ht : stringsHasPrefix (hashStrAt data nonce) tp = true
      · simp only [if_pos ht]
      · simp only [if_neg ht]
        by_cases hp : ((nonce + 1).tmod 100000 == 0 && ctx .periodic (nonce + 1)) = true
        · simp only [if_pos hp]
        · simp only [if_neg hp]
          exact ih (nonce + 1) (tested ++ [nonce])

theorem SimularProofOfWorkTraced_fst (rt : Runtime) (ctx : Context) (data : List UInt8) (d : Int)
    (fuel : Nat) :
    (SimularProofOfWorkTraced rt ctx data d fuel).1 = SimularProofOfWork rt ctx data d fuel := by
  unfold SimularProofOfWorkTraced SimularProofOfWork
  cases stringsRepeat rt "0" d with
  | none => rfl
  | some tp => exact SimularProofOfWorkTracedLoop_fst ctx data tp fuel 0 []

/-- Once the token is cancelled for every poll made at a counter `≥ k`, the
loop hashes no counter `≥ k`. -/
theorem tracedLoop_tested_lt (ctx : Context) (data : List UInt8) (tp : String) (k : Int)
    (hctx : ∀ (site : PollSite) (c : Int), k ≤ c → ctx site c = true) :
    ∀ (fuel : Nat) (nonce : Int) (tested : List Int),
      ∀ c ∈ (SimularProofOfWorkTracedLoop ctx data tp fuel nonce tested).2,
        c ∈ tested ∨ (nonce ≤ c ∧ c < k) := by
  intro fuel
  induction fuel with
  | zero => intro nonce tested c hc; exact Or.inl hc
  | succ fuel ih =>
    intro nonce tested c hc
    rw [SimularProofOfWorkTracedLoop] at hc
    by_cases hh : ctx .loopHead nonce = true
    · rw [if_pos hh] at hc
      exact Or.inl hc
    · rw [if_neg hh] at hc
      have hlt : nonce < k := by
        by_contra hge
        exact hh (hctx .loopHead nonce (not_lt.mp hge))
      have hmem : ∀ x ∈ tested ++ [nonce], x ∈ tested ∨ (nonce ≤ x ∧ x < k) := by
        intro x hx
        rcases List.mem_append.mp hx with h | h
        · exact Or.inl h
        · rw [List.mem_singleton] at h
          subst h
          exact Or.inr ⟨le_refl _, hlt⟩
      simp only at hc
      by_cases ht : stringsHasPrefix (hashStrAt data nonce) tp = true
      · rw [if_pos ht] at hc
        exact hmem c hc
      · rw [if_neg ht] at hc
        by_cases hp : ((nonce + 1).tmod 100000 == 0 && ctx .periodic (nonce + 1)) = true
        · rw [if_pos hp] at hc
          exact hmem c hc
        · rw [if_neg hp] at hc
          rcases ih (nonce + 1) (tested ++ [nonce]) c hc with h | ⟨h1, h2⟩
          · exact hmem c h
          · exact Or.inr ⟨by omega, h2⟩

/-- Once the token is cancelled for every poll made at a counter `≥ k` and no
counter below `k` passes the test, the loop returns the sentinel. -/
theorem loop_cancelled (ctx : Context) (data : List UInt8) (tp : String) (k : Int)
    (hctx : ∀ (site : PollSite) (c : Int), k ≤ c → ctx site c = true) :
    ∀ (fuel : Nat) (nonce : Int), nonce ≤ k →
      (∀ j : Int, nonce ≤ j → j < k → stringsHasPrefix (hashStrAt data j) tp = false) →
      (k - nonce).toNat < fuel →
      SimularProofOfWorkLoop ctx data tp fuel nonce = .returned ("", -1) := by
  intro fuel
  induction fuel with
  | zero => intro nonce _ _ h; omega
  | succ fuel ih =>
    intro nonce hle hfail hfuel
    rw [SimularProofOfWorkLoop]
    by_cases hh : ctx .loopHead nonce = true
    · rw [if_pos hh]
    · rw [if_neg hh]
      have hlt : nonce < k := by
        by_contra hge
        exact hh (hctx .loopHead nonce (not_lt.mp hge))
      simp only [hfail nonce (le_refl _) hlt, Bool.false_eq_true, if_false]
      by_cases hp : ((nonce + 1).tmod 100000 == 0 && ctx .periodic (nonce + 1)) = true
      · rw [if_pos hp]
      · rw [if_neg hp]
        exact ih (nonce + 1) (by omega) (fun j h1 h2 => hfail j (by omega) h2) (by omega)

/-- The loop of `SimularProofOfWork` never panics. -/
theorem SimularProofOfWorkLoop_ne_panicked (ctx : Context) (data : List UInt8) (tp : String) :
    ∀ (fuel : Nat) (nonce : Int),
      SimularProofOfWorkLoop ctx data tp fuel nonce ≠ .panicked := by
  intro fuel
  induction fuel with
  | zero => intro nonce h; simp [SimularProofOfWorkLoop] at h
  | succ fuel ih =>
    intro nonce h
    rw [SimularProofOfWorkLoop] at h
    by_cases hc : ctx .loopHead nonce = true
    · rw [if_pos hc] at h
      exact Outcome.noConfusion h
    · rw [if_neg hc] at h
      simp only at h
      by_cases ht : stringsHasPrefix (hashStrAt data nonce) tp = true
      · rw [if_pos ht] at h
        exact Outcome.noConfusion h
      · rw [if_neg ht] at h
        by_cases hp : ((nonce + 1).tmod 100000 == 0 && ctx .periodic (nonce + 1)) = true
        · rw [if_pos hp] at h
          exact Outcome.noConfusion h
        · rw [if_neg hp] at h
          exact ih (nonce + 1) h

/-- `SimularProofOfWork` panics exactly when `strings.Repeat` does: for a
negative difficulty and for one that is too large to allocate, whatever the
token, the seed and the step budget. -/
theorem SimularProofOfWork_panicked_iff (rt : Runtime) (ctx : Context) (data : List UInt8)
    (d : Int) (fuel : Nat) :
    SimularProofOfWork rt ctx data d fuel = .panicked ↔ (d < 0 ∨ (rt.maxString : Int) < d) := by
  constructor
  · intro h
    by_contra hcon
    rw [SimularProofOfWork_unfold rt ctx data d (by omega) (by omega)] at h
    exact SimularProofOfWorkLoop_ne_panicked ctx data _ fuel 0 h
  · exact SimularProofOfWork_panicked rt ctx data d fuel

/-- C2. With a token that is never cancelled and a difficulty `d ≥ 0`:
whatever `SimularProofOfWork` returns is a counter `nonce ≥ 0` and the
lowercase-hex SHA-256 of the seed followed by the decimal form of `nonce`;
that hash begins with `d` characters `'0'`, and the hash of no counter
`0 ≤ j < nonce` does.  The function does return: the least counter whose hash
begins with `d` zeros is returned as soon as the step budget exceeds it, and
for `d = 0` the counter `0` is returned at once, whatever the seed. -/
theorem SimularProofOfWork_least_nonce (rt : Runtime) (data : List UInt8) (d : Int)
    (hd : 0 ≤ d) :
    (∀ (fuel : Nat) (hash : String) (nonce : Int),
        SimularProofOfWork rt Background data d fuel = .returned (hash, nonce) →
          0 ≤ nonce ∧
          hash = hexString (Sum256 (data ++ bytesOf (Itoa nonce))) ∧
          List.replicate d.toNat '0' <+: hash.data ∧
          ∀ j : Int, 0 ≤ j → j < nonce →
            ¬ List.replicate d.toNat '0' <+:
                (hexString (Sum256 (data ++ bytesOf (Itoa j)))).data) ∧
    (∀ nonce : Int, 0 ≤ nonce →
        List.replicate d.toNat '0' <+:
            (hexString (Sum256 (data ++ bytesOf (Itoa nonce)))).data →
        (∀ j : Int, 0 ≤ j → j < nonce →
            ¬ List.replicate d.toNat '0' <+:
                (hexString (Sum256 (data ++ bytesOf (Itoa j)))).data) →
        ∀ fuel : Nat, nonce.toNat < fuel →
          SimularProofOfWork rt Background data d fuel =
            .returned (hexString (Sum256 (data ++ bytesOf (Itoa nonce))), nonce)) ∧
    (d = 0 → ∀ fuel : Nat,
        SimularProofOfWork rt Background data d (fuel + 1) =
          .returned (hexString (Sum256 (data ++ bytesOf (Itoa 0))), 0)) := by
  have key : ∀ nonce : Int, 0 ≤ nonce →
      List.replicate d.toNat '0' <+: (hashStrAt data nonce).data →
      (∀ j : Int, 0 ≤ j → j < nonce → ¬ List.replicate d.toNat '0' <+: (hashStrAt data j).data) →
      ∀ fuel : Nat, nonce.toNat < fuel →
        SimularProofOfWork rt Background data d fuel =
          .returned (hashStrAt data nonce, nonce) := by
    intro nonce h0 hpass hfail fuel hfuel
    have hfit : d ≤ rt.maxString := by
      have hle := hpass.length_le
      rw [hashStrAt_length, List.length_replicate] at hle
      have := rt.hash_le_maxString
      omega
    rw [SimularProofOfWork_unfold rt _ _ _ hd hfit]
    apply loop_background_finds data _ nonce ((stringsHasPrefix_iff _ _).mpr hpass) fuel 0 h0
    · intro j h1 h2
      rw [Bool.eq_false_iff]
      intro h
      exact hfail j h1 h2 ((stringsHasPrefix_iff _ _).mp h)
    · simpa using hfuel
  refine ⟨?_, key, ?_⟩
  · intro fuel hash nonce h
    have hfit := (SimularProofOfWork_fits rt Background data d fuel
      (by rw [h]; exact fun hh => Outcome.noConfusion hh)).2
    rw [SimularProofOfWork_unfold rt _ _ _ hd hfit] at h
    obtain ⟨h1, h2, h3, h4⟩ := loop_background_returned data _ fuel 0 hash nonce h
    refine ⟨h1, h2, ?_, ?_⟩
    · rw [h2]
      exact (stringsHasPrefix_iff _ _).mp h3
    · intro j hj1 hj2 hpre
      have hf := h4 j hj1 hj2
      have ht : stringsHasPrefix (hashStrAt data j) (String.mk (List.replicate d.toNat '0'))
          = true := (stringsHasPrefix_iff _ _).mpr hpre
      rw [ht] at hf
      exact Bool.noConfusion hf
  · intro hd0 fuel
    subst hd0
    exact key 0 (le_refl _) (by simp) (fun j h1 h2 => by omega) (fuel + 1) (by simp)

/-- C8 (as amended). Let the difficulty `d ≥ 0` be one whose target prefix
`strings.Repeat` can allocate, let the token be cancelled for every poll made
once the counter has reached `k`, and let no counter `0 ≤ j < k` have a hash
with `d` leading zeros.  Then `SimularProofOfWork` returns the empty string
and the sentinel `-1` (as soon as the step budget exceeds `k`), and no counter
value `≥ k + 100000` is ever hashed.  (`tracedLoop_tested_lt` shows more: no
counter `≥ k` is hashed, since the token is also polled at the head of each
iteration.) -/
theorem SimularProofOfWork_cancelled (rt : Runtime) (data : List UInt8) (d : Int) (hd : 0 ≤ d)
    (hfit : d ≤ rt.maxString) (k : Int) (hk : 0 ≤ k) (ctx : Context)
    (hctx : ∀ (site : PollSite) (c : Int), k ≤ c → ctx site c = true)
    (hfail : ∀ j : Int, 0 ≤ j → j < k →
      ¬ List.replicate d.toNat '0' <+: (hexString (Sum256 (data ++ bytesOf (Itoa j)))).data) :
    (∀ fuel : Nat, k.toNat < fuel →
      SimularProofOfWork rt ctx data d fuel = .returned ("", -1)) ∧
    (∀ fuel : Nat,
      (SimularProofOfWorkTraced rt ctx data d fuel).1 = SimularProofOfWork rt ctx data d fuel ∧
      ∀ c ∈ (SimularProofOfWorkTraced rt ctx data d fuel).2, c < k + 100000) := by
  constructor
  · intro fuel hfuel
    rw [SimularProofOfWork_unfold rt _ _ _ hd hfit]
    apply loop_cancelled ctx data _ k hctx fuel 0 hk
    · intro j h1 h2
      rw [Bool.eq_false_iff]
      intro h
      exact hfail j h1 h2 ((stringsHasPrefix_iff _ _).mp h)
    · simpa using hfuel
  · intro fuel
    refine ⟨SimularProofOfWorkTraced_fst rt ctx data d fuel, ?_⟩
    intro c hc
    simp only [SimularProofOfWorkTraced, stringsRepeat_zeros rt d hd hfit] at hc
    rcases tracedLoop_tested_lt ctx data _ k hctx fuel 0 [] c hc with h | ⟨_, h⟩
    · simp at h
    · omega

/-- C8, counterexample to the claim as stated.  For the difficulty `2^62`
and a token that is cancelled from the start (`k = 0`), `SimularProofOfWork`
panics in `strings.Repeat`, before its first poll of the token, whatever the
run-time and the step budget: it does not return the sentinel. -/
theorem SimularProofOfWork_cancelled_huge_difficulty :
    (0 : Int) ≤ 4611686018427387904 ∧
    (∀ (site : PollSite) (c : Int), (0 : Int) ≤ c →
      (fun (_ : PollSite) (_ : Int) => true) site c = true) ∧
    (∀ (rt : Runtime) (fuel : Nat),
      SimularProofOfWork rt (fun _ _ => true) (bytesOf "seed3") 4611686018427387904 fuel =
        .panicked) ∧
    (∀ (rt : Runtime) (fuel : Nat),
      SimularProofOfWork rt (fun _ _ => true) (bytesOf "seed3") 4611686018427387904 fuel ≠
        .returned ("", -1)) := by
  have hp : ∀ (rt : Runtime) (fuel : Nat),
      SimularProofOfWork rt (fun _ _ => true) (bytesOf "seed3") 4611686018427387904 fuel =
        .panicked := by
    intro rt fuel
    apply SimularProofOfWork_panicked
    right
    apply maxString_lt_of_maxAlloc_lt
    decide
  refine ⟨by decide, fun _ _ _ => rfl, hp, ?_⟩
  intro rt fuel h
  rw [hp rt fuel] at h
  exact Outcome.noConfusion h

/-- C10. For a difficulty `d > 64` no counter passes the prefix test of
`SimularProofOfWork`, because every hash string has exactly 64 characters.
Hence with a token that is never cancelled the function does not return,
whatever the step budget: it runs on without end when the target prefix can
be allocated, and panics in `strings.Repeat` when it cannot.  Under any token
the only value it can return is the cancellation sentinel `("", -1)`, and
under a cancelled token it does return it. -/
theorem SimularProofOfWork_difficulty_above_64 (rt : Runtime) (data : List UInt8) (d : Int)
    (hd : 64 < d) :
    (∀ nonce : Int,
        (hexString (Sum256 (data ++ bytesOf (Itoa nonce)))).data.length = 64 ∧
        ¬ List.replicate d.toNat '0' <+:
            (hexString (Sum256 (data ++ bytesOf (Itoa nonce)))).data) ∧
    (∀ (fuel : Nat) (v : String × Int),
        SimularProofOfWork rt Background data d fuel ≠ .returned v) ∧
    (d ≤ rt.maxString → ∀ fuel : Nat,
        SimularProofOfWork rt Background data d fuel = .outOfFuel) ∧
    ((rt.maxString : Int) < d → ∀ (ctx : Context) (fuel : Nat),
        SimularProofOfWork rt ctx data d fuel = .panicked) ∧
    (∀ (ctx : Context) (fuel : Nat) (hash : String) (nonce : Int),
        SimularProofOfWork rt ctx data d fuel = .returned (hash, nonce) →
          hash = "" ∧ nonce = -1) ∧
    (d ≤ rt.maxString → ∀ fuel : Nat,
        SimularProofOfWork rt (fun _ _ => true) data d (fuel + 1) = .returned ("", -1)) := by
  have hd0 : 0 ≤ d := by omega
  have hk : 64 < d.toNat := by omega
  have hnone : ∀ j : Int,
      stringsHasPrefix (hashStrAt data j) (String.mk (List.replicate d.toNat '0')) = false :=
    fun j => no_long_prefix data j d.toNat hk
  have hdiv : d ≤ rt.maxString → ∀ fuel : Nat,
      SimularProofOfWork rt Background data d fuel = .outOfFuel := by
    intro hfit fuel
    rw [SimularProofOfWork_unfold rt _ _ _ hd0 hfit]
    exact loop_background_diverges data _ hnone fuel 0
  have hpanic : (rt.maxString : Int) < d → ∀ (ctx : Context) (fuel : Nat),
      SimularProofOfWork rt ctx data d fuel = .panicked :=
    fun h ctx fuel => SimularProofOfWork_panicked rt ctx data d fuel (Or.inr h)
  refine ⟨?_, ?_, hdiv, hpanic, ?_, ?_⟩
  · intro nonce
    refine ⟨hashStrAt_length data nonce, ?_⟩
    intro hpre
    have hf := hnone nonce
    have ht : stringsHasPrefix (hashStrAt data nonce) (String.mk (List.replicate d.toNat '0'))
        = true := (stringsHasPrefix_iff _ _).mpr hpre
    rw [ht] at hf
    exact Bool.noConfusion hf
  · intro fuel v h
    by_cases hfit : d ≤ rt.maxString
    · rw [hdiv hfit fuel] at h
      exact Outcome.noConfusion h
    · rw [hpanic (by omega) Background fuel] at h
      exact Outcome.noConfusion h
  · intro ctx fuel hash nonce h
    have hfit := (SimularProofOfWork_fits rt ctx data d fuel
      (by rw [h]; exact fun hh => Outcome.noConfusion hh)).2
    rw [SimularProofOfWork_unfold rt _ _ _ hd0 hfit] at h
    rcases loop_returned ctx data _ fuel 0 hash nonce h with h' | ⟨_, _, h3, _⟩
    · exact h'
    · rw [hnone nonce] at h3
      exact Bool.noConfusion h3
  · intro hfit fuel
    rw [SimularProofOfWork_unfold rt _ _ _ hd0 hfit]
    rfl

set_option maxRecDepth 100000 in
/-- Witness for C2: seed `"seed3"`, difficulty 1; the run returns counter 2. -/
theorem SimularProofOfWork_least_nonce_witness :
    (0 : Int) ≤ 1 ∧
    SimularProofOfWork smallRuntime Background (bytesOf "seed3") 1 3 =
      .returned ("0f9e1a666c0adeec590adedc19c8a5e9c3157ed8c354e701d6a44cfcdbca733e", 2) ∧
    ((0 : Int) ≤ 2 ∧
      "0f9e1a666c0adeec590adedc19c8a5e9c3157ed8c354e701d6a44cfcdbca733e" =
        hexString (Sum256 (bytesOf "seed3" ++ bytesOf (Itoa 2))) ∧
      List.replicate (1 : Int).toNat '0' <+:
        ("0f9e1a666c0adeec590adedc19c8a5e9c3157ed8c354e701d6a44cfcdbca733e" : String).data ∧
      ∀ j : Int, 0 ≤ j → j < 2 →
        ¬ List.replicate (1 : Int).toNat '0' <+:
            (hexString (Sum256 (bytesOf "seed3" ++ bytesOf (Itoa j)))).data) :=
  have hrun : SimularProofOfWork smallRuntime Background (bytesOf "seed3") 1 3 =
      .returned ("0f9e1a666c0adeec590adedc19c8a5e9c3157ed8c354e701d6a44cfcdbca733e", 2) := by
    decide!
  ⟨by decide, hrun,
    (SimularProofOfWork_least_nonce smallRuntime (bytesOf "seed3") 1 (by decide)).1 3 _ 2 hrun⟩

set_option maxRecDepth 100000 in
/-- Witness for C8: seed `"seed3"`, difficulty 1, token cancelled from counter 2 on. -/
theorem SimularProofOfWork_cancelled_witness :
    (0 : Int) ≤ 1 ∧ (1 : Int) ≤ smallRuntime.maxString ∧
    SimularProofOfWork smallRuntime (fun _ c => decide (2 ≤ c)) (bytesOf "seed3") 1 3 =
      .returned ("", -1) ∧
    (SimularProofOfWorkTraced smallRuntime (fun _ c => decide (2 ≤ c)) (bytesOf "seed3") 1 3).2 =
      [0, 1] ∧
    ∀ c ∈ (SimularProofOfWorkTraced smallRuntime (fun _ c => decide (2 ≤ c))
        (bytesOf "seed3") 1 3).2,
      c < 2 + 100000 :=
  have h := SimularProofOfWork_cancelled smallRuntime (bytesOf "seed3") 1 (by decide) (by decide)
    2 (by decide) (fun _ c => decide (2 ≤ c)) (fun _ c hc => by simpa using hc)
    (fun j h0 h2 => by
      have hj : j = 0 ∨ j = 1 := by omega
      rcases hj with rfl | rfl
      · decide!
      · decide!)
  ⟨by decide, by decide, h.1 3 (by decide), by decide!, (h.2 3).2⟩

/-- Witness for C10: seed `"seed3"`, difficulty 65, which the run-time of the
instances can allocate. -/
theorem SimularProofOfWork_difficulty_above_64_witness :
    (64 : Int) < 65 ∧
    (∀ fuel : Nat,
      SimularProofOfWork smallRuntime Background (bytesOf "seed3") 65 fuel = .outOfFuel) ∧
    (∀ fuel : Nat,
      SimularProofOfWork smallRuntime (fun _ _ => true) (bytesOf "seed3") 65 (fuel + 1) =
        .returned ("", -1)) :=
  have h := SimularProofOfWork_difficulty_above_64 smallRuntime (bytesOf "seed3") 65 (by decide)
  ⟨by decide, h.2.2.1 (by decide), h.2.2.2.2.2 (by decide)⟩

/-! ## `EncontrarPrimos` -/

/-- Trial division decides primality: started at `q` with no divisor of `p`
in `[2, q)`, the inner loop ends with `isPrime` saying whether `p` is prime,
and a budget of `p + 1 - q` further steps is enough. -/
theorem isPrimeLoop_spec (p : Nat) (hp : 2 ≤ p) :
    ∀ (fuel q : Nat), 2 ≤ q → p + 1 ≤ q + fuel → (∀ m : Nat, 2 ≤ m → m < q → ¬ m ∣ p) →
      isPrimeLoop (p : Int) (fuel + 1) (q : Int) = some (decide (Nat.Prime p)) := by
  intro fuel
  induction fuel with
  | zero =>
    intro q hq hfuel hdiv
    have hlt : ¬ ((q : Int) * q ≤ p) := by
      have : p < q * q := by nlinarith
      exact_mod_cast not_le.mpr this
    rw [isPrimeLoop, if_neg hlt]
    have hprime : Nat.Prime p := by
      rw [Nat.prime_def_le_sqrt]
      refine ⟨hp, fun m hm hle => hdiv m hm ?_⟩
      have := Nat.sqrt_le_self p
      omega
    simp [hprime]
  | succ fuel ih =>
    intro q hq hfuel hdiv
    rw [isPrimeLoop]
    by_cases hsq : q * q ≤ p
    · have hsq' : (q : Int) * q ≤ p := by exact_mod_cast hsq
      rw [if_pos hsq']
      by_cases hd : q ∣ p
      · have hd' : ((p : Int).tmod q == 0) = true := by
          rw [beq_iff_eq]
          exact Int.tmod_eq_zero_of_dvd (Int.natCast_dvd_natCast.mpr hd)
        rw [if_pos hd']
        have hnp : ¬ Nat.Prime p := by
          intro hprime
          rcases (Nat.dvd_prime hprime).mp hd with h | h
          · omega
          · subst h
            nlinarith
        simp [hnp]
      · have hd' : ¬ ((p : Int).tmod q == 0) = true := by
          rw [beq_iff_eq]
          intro h
          exact hd (Int.natCast_dvd_natCast.mp (Int.dvd_of_tmod_eq_zero h))
        rw [if_neg hd']
        have hcast : (q : Int) + 1 = ((q + 1 : Nat) : Int) := by push_cast; rfl
        rw [hcast]
        apply ih (q + 1) (by omega) (by omega)
        intro m hm hlt
        by_cases hmq : m = q
        · subst hmq; exact hd
        · exact hdiv m hm (by omega)
    · have hsq' : ¬ ((q : Int) * q ≤ p) := by exact_mod_cast hsq
      rw [if_neg hsq']
      have hprime : Nat.Prime p := by
        rw [Nat.prime_def_le_sqrt]
        refine ⟨hp, fun m hm hle => hdiv m hm ?_⟩
        have hmm : m * m ≤ p := Nat.le_sqrt.mp hle
        by_contra hge
        have : q * q ≤ m * m := Nat.mul_le_mul (not_lt.mp hge) (not_lt.mp hge)
        omega
      simp [hprime]

/-- The call of the inner loop made by `EncontrarPrimos` for a candidate
`i ≥ 2` never exhausts its budget and decides whether `i` is prime. -/
theorem isPrimeLoop_eq (i : Int) (hi : 2 ≤ i) :
    isPrimeLoop i i.toNat 2 = some (decide (Nat.Prime i.toNat)) := by
  obtain ⟨p, rfl⟩ : ∃ p : Nat, i = p := ⟨i.toNat, by omega⟩
  have hp : 2 ≤ p := by exact_mod_cast hi
  obtain ⟨f, rfl⟩ : ∃ f : Nat, p = f + 1 := ⟨p - 1, by omega⟩
  simp only [Int.toNat_ofNat]
  exact isPrimeLoop_spec (f + 1) hp f 2 (le_refl _) (by omega) (fun m h1 h2 => by omega)

/-- One iteration of the outer loop for a candidate `i ≥ 2` with `i ≤ max`
that is not cancelled at the head of the iteration. -/
theorem EncontrarPrimosLoop_step (ctx : Context) (max : Int) (fuel : Nat) (i : Int)
    (primes : List Int) (hi : 2 ≤ i) (hle : i ≤ max) (hhead : ctx .loopHead i = false) :
    EncontrarPrimosLoop ctx max (fuel + 1) i primes =
      if (i.tmod 1000 == 0 && ctx .periodic i) = true then
        .returned (if Nat.Prime i.toNat then primes ++ [i] else primes)
      else
        EncontrarPrimosLoop ctx max fuel (i + 1)
          (if Nat.Prime i.toNat then primes ++ [i] else primes) := by
  rw [EncontrarPrimosLoop, if_pos hle, hhead, isPrimeLoop_eq i hi]
  simp only [Bool.false_eq_true, if_false, decide_eq_true_eq]

/-- Whatever token is given, the loop returns once the budget covers the
remaining candidates. -/
theorem EncontrarPrimosLoop_returns (ctx : Context) (max : Int) :
    ∀ (fuel : Nat) (i : Int) (primes : List Int), 2 ≤ i → (max + 1 - i).toNat < fuel →
      ∃ r, EncontrarPrimosLoop ctx max fuel i primes = .returned r := by
  intro fuel
  induction fuel with
  | zero => intro i primes _ h; omega
  | succ fuel ih =>
    intro i primes hi hfuel
    by_cases hle : i ≤ max
    · by_cases hhead : ctx .loopHead i = true
      · exact ⟨primes, by rw [EncontrarPrimosLoop, if_pos hle, if_pos hhead]⟩
      · rw [EncontrarPrimosLoop_step ctx max fuel i primes hi hle (by simpa using hhead)]
        by_cases hp : (i.tmod 1000 == 0 && ctx .periodic i) = true
        · rw [if_pos hp]; exact ⟨_, rfl⟩
        · rw [if_neg hp]
          exact ih (i + 1) _ (by omega) (by omega)
    · exact ⟨primes, by rw [EncontrarPrimosLoop, if_neg hle]⟩

/-- The loop only appends: the slice it returns extends the slice it started with. -/
theorem EncontrarPrimosLoop_extends (ctx : Context) (max : Int) :
    ∀ (fuel : Nat) (i : Int) (primes r : List Int), 2 ≤ i →
      EncontrarPrimosLoop ctx max fuel i primes = .returned r → primes <+: r := by
  intro fuel
  induction fuel with
  | zero => intro i primes r _ h; simp [EncontrarPrimosLoop] at h
  | succ fuel ih =>
    intro i primes r hi h
    have hstep : primes <+: (if Nat.Prime i.toNat then primes ++ [i] else primes) := by
      split
      · exact List.prefix_append _ _
      · exact List.prefix_refl _
    by_cases hle : i ≤ max
    · by_cases hhead : ctx .loopHead i = true
      · rw [EncontrarPrimosLoop, if_pos hle, if_pos hhead] at h
        injection h with h
        rw [h]
      · rw [EncontrarPrimosLoop_step ctx max fuel i primes hi hle (by simpa using hhead)] at h
        by_cases hp : (i.tmod 1000 == 0 && ctx .periodic i) = true
        · rw [if_pos hp] at h
          injection h with h
          rw [← h]
          exact hstep
        · rw [if_neg hp] at h
          exact hstep.trans (ih (i + 1) _ r (by omega) h)
    · rw [EncontrarPrimosLoop, if_neg hle] at h
      injection h with h
      rw [h]

/-- A cancelled run returns a prefix of what the run that is never cancelled
returns from the same state. -/
theorem EncontrarPrimosLoop_prefix (ctx : Context) (max : Int) :
    ∀ (fuel : Nat) (i : Int) (primes r c : List Int), 2 ≤ i →
      EncontrarPrimosLoop ctx max fuel i primes = .returned r →
      EncontrarPrimosLoop Background max fuel i primes = .returned c → r <+: c := by
  intro fuel
  induction fuel with
  | zero => intro i primes r c _ h; simp [EncontrarPrimosLoop] at h
  | succ fuel ih =>
    intro i primes r c hi h hc
    by_cases hle : i ≤ max
    · rw [EncontrarPrimosLoop_step Background max fuel i primes hi hle rfl] at hc
      simp only [Background, Bool.and_false, Bool.false_eq_true, if_false] at hc
      have hstep : primes <+: (if Nat.Prime i.toNat then primes ++ [i] else primes) := by
        split
        · exact List.prefix_append _ _
        · exact List.prefix_refl _
      have hext := EncontrarPrimosLoop_extends Background max fuel (i + 1) _ c (by omega) hc
      by_cases hhead : ctx .loopHead i = true
      · rw [EncontrarPrimosLoop, if_pos hle, if_pos hhead] at h
        injection h with h
        rw [← h]
        exact hstep.trans hext
      · rw [EncontrarPrimosLoop_step ctx max fuel i primes hi hle (by simpa using hhead)] at h
        by_cases hp : (i.tmod 1000 == 0 && ctx .periodic i) = true
        · rw [if_pos hp] at h
          injection h with h
          rw [← h]
          exact hext
        · rw [if_neg hp] at h
          exact ih (i + 1) _ r c (by omega) h hc
    · rw [EncontrarPrimosLoop, if_neg hle] at h hc
      injection h with h
      injection hc with hc
      rw [← h, ← hc]

/-- Under a token that is never cancelled the loop appends exactly the primes
among the remaining candidates, in increasing order. -/
theorem EncontrarPrimosLoop_background (max : Int) :
    ∀ (fuel : Nat) (i : Int) (primes r : List Int), 2 ≤ i →
      EncontrarPrimosLoop Background max fuel i primes = .returned r →
      (∀ p : Int, p ∈ r ↔ p ∈ primes ∨ (i ≤ p ∧ p ≤ max ∧ Nat.Prime p.toNat)) ∧
      (primes.Pairwise (· < ·) → (∀ x ∈ primes, x < i) → r.Pairwise (· < ·)) := by
  intro fuel
  induction fuel with
  | zero => intro i primes r _ h; simp [EncontrarPrimosLoop] at h
  | succ fuel ih =>
    intro i primes r hi h
    by_cases hle : i ≤ max
    · rw [EncontrarPrimosLoop_step Background max fuel i primes hi hle rfl] at h
      simp only [Background, Bool.and_false, Bool.false_eq_true, if_false] at h
      obtain ⟨hmem, hsorted⟩ := ih (i + 1) _ r (by omega) h
      constructor
      · intro p
        rw [hmem p]
        by_cases hprime : Nat.Prime i.toNat
        · simp only [if_pos hprime, List.mem_append, List.mem_singleton]
          constructor
          · rintro ((h1 | h1) | ⟨h1, h2, h3⟩)
            · exact Or.inl h1
            · subst h1; exact Or.inr ⟨le_refl _, hle, hprime⟩
            · exact Or.inr ⟨by omega, h2, h3⟩
          · rintro (h1 | ⟨h1, h2, h3⟩)
            · exact Or.inl (Or.inl h1)
            · by_cases hpi : p = i
              · exact Or.inl (Or.inr hpi)
              · exact Or.inr ⟨by omega, h2, h3⟩
        · simp only [if_neg hprime]
          constructor
          · rintro (h1 | ⟨h1, h2, h3⟩)
            · exact Or.inl h1
            · exact Or.inr ⟨by omega, h2, h3⟩
          · rintro (h1 | ⟨h1, h2, h3⟩)
            · exact Or.inl h1
            · by_cases hpi : p = i
              · subst hpi; exact absurd h3 hprime
              · exact Or.inr ⟨by omega, h2, h3⟩
      · intro hpw hlt
        apply hsorted
        · split
          · rw [List.pairwise_append]
            refine ⟨hpw, List.pairwise_singleton _ _, ?_⟩
            intro a ha b hb
            rw [List.mem_singleton] at hb
            subst hb
            exact hlt a ha
          · exact hpw
        · intro x hx
          split at hx
          · rcases List.mem_append.mp hx with h1 | h1
            · have := hlt x h1; omega
            · rw [List.mem_singleton] at h1; omega
          · have := hlt x hx; omega
    · rw [EncontrarPrimosLoop, if_neg hle] at h
      injection h with h
      subst h
      exact ⟨fun p => ⟨Or.inl, fun hp => hp.elim id (fun ⟨h1, h2, _⟩ => by omega)⟩,
        fun hpw _ => hpw⟩

/-- `EncontrarPrimos` returns under every token: its budget is never used up. -/
theorem EncontrarPrimos_returns (ctx : Context) (max : Int) :
    ∃ r, EncontrarPrimos ctx max = .returned r :=
  EncontrarPrimosLoop_returns ctx max (max.toNat + 1) 2 [] (le_refl _) (by omega)

/-- When the poll at the head of iteration `i0` finds the token cancelled,
nothing `≥ i0` is appended. -/
theorem EncontrarPrimosLoop_head_cancelled (ctx : Context) (max i0 : Int)
    (h0 : ctx .loopHead i0 = true) :
    ∀ (fuel : Nat) (i : Int) (primes r : List Int), 2 ≤ i → i ≤ i0 →
      EncontrarPrimosLoop ctx max fuel i primes = .returned r →
      ∀ x ∈ r, x ∈ primes ∨ x < i0 := by
  intro fuel
  induction fuel with
  | zero => intro i primes r _ _ h; simp [EncontrarPrimosLoop] at h
  | succ fuel ih =>
    intro i primes r hi hi0 h x hx
    by_cases hle : i ≤ max
    · by_cases hhead : ctx .loopHead i = true
      · rw [EncontrarPrimosLoop, if_pos hle, if_pos hhead] at h
        injection h with h
        subst h
        exact Or.inl hx
      · have hne : i ≠ i0 := fun heq => hhead (heq ▸ h0)
        have hstep : ∀ y ∈ (if Nat.Prime i.toNat then primes ++ [i] else primes),
            y ∈ primes ∨ y < i0 := by
          intro y hy
          split at hy
          · rcases List.mem_append.mp hy with h1 | h1
            · exact Or.inl h1
            · rw [List.mem_singleton] at h1
              exact Or.inr (by omega)
          · exact Or.inl hy
        rw [EncontrarPrimosLoop_step ctx max fuel i primes hi hle (by simpa using hhead)] at h
        by_cases hp : (i.tmod 1000 == 0 && ctx .periodic i) = true
        · rw [if_pos hp] at h
          injection h with h
          subst h
          exact hstep x hx
        · rw [if_neg hp] at h
          rcases ih (i + 1) _ r (by omega) (by omega) h x hx with h1 | h1
          · exact hstep x h1
          · exact Or.inr h1
    · rw [EncontrarPrimosLoop, if_neg hle] at h
      injection h with h
      subst h
      exact Or.inl hx

/-- When the periodic poll of iteration `i0` (a multiple of 1000) finds the
token cancelled, nothing `> i0` is appended. -/
theorem EncontrarPrimosLoop_periodic_cancelled (ctx : Context) (max i0 : Int)
    (hmod : i0.tmod 1000 = 0) (h0 : ctx .periodic i0 = true) :
    ∀ (fuel : Nat) (i : Int) (primes r : List Int), 2 ≤ i → i ≤ i0 →
      EncontrarPrimosLoop ctx max fuel i primes = .returned r →
      ∀ x ∈ r, x ∈ primes ∨ x ≤ i0 := by
  intro fuel
  induction fuel with
  | zero => intro i primes r _ _ h; simp [EncontrarPrimosLoop] at h
  | succ fuel ih =>
    intro i primes r hi hi0 h x hx
    by_cases hle : i ≤ max
    · by_cases hhead : ctx .loopHead i = true
      · rw [EncontrarPrimosLoop, if_pos hle, if_pos hhead] at h
        injection h with h
        subst h
        exact Or.inl hx
      · have hstep : ∀ y ∈ (if Nat.Prime i.toNat then primes ++ [i] else primes),
            y ∈ primes ∨ y ≤ i0 := by
          intro y hy
          split at hy
          · rcases List.mem_append.mp hy with h1 | h1
            · exact Or.inl h1
            · rw [List.mem_singleton] at h1
              exact Or.inr (by omega)
          · exact Or.inl hy
        rw [EncontrarPrimosLoop_step ctx max fuel i primes hi hle (by simpa using hhead)] at h
        by_cases hp : (i.tmod 1000 == 0 && ctx .periodic i) = true
        · rw [if_pos hp] at h
          injection h with h
          subst h
          exact hstep x hx
        · rw [if_neg hp] at h
          have hne : i ≠ i0 := by
            intro heq
            subst heq
            apply hp
            simp [hmod, h0]
          rcases ih (i + 1) _ r (by omega) (by omega) h x hx with h1 | h1
          · exact hstep x h1
          · exact Or.inr h1
    · rw [EncontrarPrimosLoop, if_neg hle] at h
      injection h with h
      subst h
      exact Or.inl hx

/-- C3. For every integer bound `m`, with a token that is never cancelled,
`EncontrarPrimos` returns exactly the primes `p` with `2 ≤ p ≤ m`, each once
and in strictly increasing order; for `m < 2` the result is empty. -/
theorem EncontrarPrimos_primes (m : Int) :
    ∃ primes : List Int, EncontrarPrimos Background m = .returned primes ∧
      (∀ p : Int, p ∈ primes ↔ 2 ≤ p ∧ p ≤ m ∧ Nat.Prime p.toNat) ∧
      primes.Sorted (· < ·) ∧ primes.Nodup ∧ (m < 2 → primes = []) := by
  obtain ⟨r, hr⟩ := EncontrarPrimos_returns Background m
  obtain ⟨hmem, hsorted⟩ :=
    EncontrarPrimosLoop_background m (m.toNat + 1) 2 [] r (le_refl _) hr
  have hmem' : ∀ p : Int, p ∈ r ↔ 2 ≤ p ∧ p ≤ m ∧ Nat.Prime p.toNat := by
    intro p
    rw [hmem p]
    simp
  have hpw : r.Pairwise (· < ·) := hsorted List.Pairwise.nil (fun x hx => by simp at hx)
  refine ⟨r, hr, hmem', hpw, hpw.imp (fun h => ne_of_lt h), ?_⟩
  intro hm
  rw [List.eq_nil_iff_forall_not_mem]
  intro p hp
  have := (hmem' p).mp hp
  omega

/-- C4 (as amended). A run of `EncontrarPrimos` that observes cancellation
returns a prefix of the sequence the run without cancellation returns for
the same bound.  The prefix is strict when a prime is left: a prime `p ≤ m`
with `i ≤ p` when the poll at the head of iteration `i` observes the
cancellation, or with `i < p` when the periodic poll of iteration `i` does.
(It can be the whole sequence otherwise.) -/
theorem EncontrarPrimos_cancelled_prefix (m : Int) (ctx : Context) :
    ∃ found complete : List Int,
      EncontrarPrimos ctx m = .returned found ∧
      EncontrarPrimos Background m = .returned complete ∧
      found <+: complete ∧
      (∀ i p : Int, 2 ≤ i → ctx .loopHead i = true →
        i ≤ p → p ≤ m → Nat.Prime p.toNat → found ≠ complete) ∧
      (∀ i p : Int, 2 ≤ i → i.tmod 1000 = 0 → ctx .periodic i = true →
        i < p → p ≤ m → Nat.Prime p.toNat → found ≠ complete) := by
  obtain ⟨r, hr⟩ := EncontrarPrimos_returns ctx m
  obtain ⟨c, hc⟩ := EncontrarPrimos_returns Background m
  obtain ⟨hmem, _⟩ := EncontrarPrimosLoop_background m (m.toNat + 1) 2 [] c (le_refl _) hc
  refine ⟨r, c, hr, hc,
    EncontrarPrimosLoop_prefix ctx m (m.toNat + 1) 2 [] r c (le_refl _) hr hc, ?_, ?_⟩
  · intro i p hi hctx hip hpm hprime heq
    have hpc : p ∈ c := (hmem p).mpr (Or.inr ⟨by omega, hpm, hprime⟩)
    rw [← heq] at hpc
    rcases EncontrarPrimosLoop_head_cancelled ctx m i hctx (m.toNat + 1) 2 [] r (le_refl _) hi hr
      p hpc with h | h
    · simp at h
    · omega
  · intro i p hi hmod hctx hip hpm hprime heq
    have hpc : p ∈ c := (hmem p).mpr (Or.inr ⟨by omega, hpm, hprime⟩)
    rw [← heq] at hpc
    rcases EncontrarPrimosLoop_periodic_cancelled ctx m i hmod hctx (m.toNat + 1) 2 [] r
      (le_refl _) hi hr p hpc with h | h
    · simp at h
    · omega

/-- Witness for C3: the bounds 30 and 1. -/
theorem EncontrarPrimos_primes_witness :
    EncontrarPrimos Background 30 = .returned [2, 3, 5, 7, 11, 13, 17, 19, 23, 29] ∧
    EncontrarPrimos Background 1 = .returned [] :=
  ⟨by decide,
    match EncontrarPrimos_primes 1 with
    | ⟨_, h, _, _, _, hnil⟩ => by rw [h, hnil (by decide)]⟩

/-- Witness for C4: bound 10 and a token cancelled from the iteration `i = 5`
on; the run returns `[2, 3]`, a strict prefix of `[2, 3, 5, 7]`. -/
theorem EncontrarPrimos_cancelled_prefix_witness :
    ∃ found complete : List Int,
      EncontrarPrimos (fun _ i => decide (5 ≤ i)) 10 = .returned found ∧
      EncontrarPrimos Background 10 = .returned complete ∧
      found = [2, 3] ∧ complete = [2, 3, 5, 7] ∧
      found <+: complete ∧ found ≠ complete :=
  match EncontrarPrimos_cancelled_prefix 10 (fun _ i => decide (5 ≤ i)) with
  | ⟨found, complete, h1, h2, hpre, hstrict, _⟩ =>
    have e1 : EncontrarPrimos (fun _ i => decide (5 ≤ i)) 10 = .returned [2, 3] := by decide
    have e2 : EncontrarPrimos Background 10 = .returned [2, 3, 5, 7] := by decide
    ⟨found, complete, h1, h2, Outcome.returned.inj (h1.symm.trans e1),
      Outcome.returned.inj (h2.symm.trans e2), hpre,
      hstrict 5 5 (by decide) (by decide) (by decide) (by decide)
        (show Nat.Prime 5 by norm_num)⟩

/-- C4, counterexample to the claim as stated.  With bound 4 and a token
cancelled from the iteration `i = 4` on, the cancellation is observed at the
head of iteration 4; the run returns `[2, 3]`, which is the whole sequence
returned without cancellation, not a strict prefix of it. -/
theorem EncontrarPrimos_cancelled_not_strict :
    ∃ found complete : List Int,
      EncontrarPrimos (fun _ i => decide (4 ≤ i)) 4 = .returned found ∧
      EncontrarPrimos Background 4 = .returned complete ∧
      found = [2, 3] ∧ complete = [2, 3] ∧
      ¬ (found <+: complete ∧ found ≠ complete) :=
  ⟨[2, 3], [2, 3], by decide, by decide, rfl, rfl, fun h => h.2 rfl⟩

/-! ## `CalcularTrazaDeProductoDeMatrices` -/

/-- The inner loop adds to `sum` the products of the remaining columns. -/
theorem rowTimesColumn_eq (n : Nat) (m1 m2 : Int → Int → Int) (i : Int) :
    ∀ (fuel k : Nat) (sum : Int), n - k < fuel →
      rowTimesColumn n m1 m2 i fuel k sum =
        .returned (sum + ∑ j in Finset.Ico k n, m1 i j * m2 j i) := by
  intro fuel
  induction fuel with
  | zero => intro k sum h; omega
  | succ fuel ih =>
    intro k sum hfuel
    rw [rowTimesColumn]
    by_cases hk : k < n
    · have hk' : (k : Int) < n := by exact_mod_cast hk
      have hcast : (k : Int) + 1 = ((k + 1 : Nat) : Int) := by push_cast; rfl
      rw [if_pos hk', hcast, ih (k + 1) _ (by omega), Finset.sum_eq_sum_Ico_succ_bot hk]
      congr 1
      ring
    · have hk' : ¬ (k : Int) < n := by exact_mod_cast hk
      rw [if_neg hk', Finset.Ico_eq_empty (by omega)]
      simp

/-- The call of the inner loop made for row `i` returns the product of row
`i` of `m1` and column `i` of `m2`. -/
theorem rowTimesColumn_row (n : Nat) (m1 m2 : Int → Int → Int) (i : Int) :
    rowTimesColumn n m1 m2 i ((n : Int).toNat + 1) 0 0 =
      .returned (∑ k in Finset.range n, m1 i k * m2 k i) := by
  have h := rowTimesColumn_eq n m1 m2 i ((n : Int).toNat + 1) 0 0 (by simp)
  simpa using h

/-- One iteration of the outer loop for a row `i < n` that is not cancelled
at the head of the iteration. -/
theorem CalcularTrazaLoop_step (ctx : Context) (n : Nat) (m1 m2 : Int → Int → Int) (fuel i : Nat)
    (trace : Int) (hi : i < n) (hhead : ctx .loopHead i = false) :
    CalcularTrazaLoop ctx n m1 m2 (fuel + 1) i trace =
      if ((i : Int).tmod 10 == 0 && ctx .periodic i) = true then
        .returned (trace + ∑ k in Finset.range n, m1 i k * m2 k i)
      else
        CalcularTrazaLoop ctx n m1 m2 fuel ((i + 1 : Nat) : Int)
          (trace + ∑ k in Finset.range n, m1 i k * m2 k i) := by
  have hi' : (i : Int) < n := by exact_mod_cast hi
  have hcast : ((i + 1 : Nat) : Int) = (i : Int) + 1 := by push_cast; rfl
  rw [CalcularTrazaLoop, if_pos hi', hhead, rowTimesColumn_row, hcast]
  simp only [Bool.false_eq_true, if_false]

/-- While no poll finds the token cancelled, the loop moves from row `i` to
row `r`, adding the rows in between. -/
theorem CalcularTrazaLoop_advance (ctx : Context) (n : Nat) (m1 m2 : Int → Int → Int) (r : Nat)
    (hr : r ≤ n) :
    ∀ (steps fuel i : Nat) (trace : Int), i + steps = r →
      (∀ j : Nat, i ≤ j → j < r →
        ctx .loopHead j = false ∧ ((j : Int).tmod 10 == 0 && ctx .periodic j) = false) →
      CalcularTrazaLoop ctx n m1 m2 (fuel + steps) i trace =
        CalcularTrazaLoop ctx n m1 m2 fuel r
          (trace + ∑ j in Finset.Ico i r, ∑ k in Finset.range n, m1 j k * m2 k j) := by
  intro steps
  induction steps with
  | zero =>
    intro fuel i trace hir _
    have : i = r := by omega
    subst this
    simp
  | succ steps ih =>
    intro fuel i trace hir hctx
    have hlt : i < r := by omega
    obtain ⟨h1, h2⟩ := hctx i (le_refl _) hlt
    rw [show fuel + (steps + 1) = (fuel + steps) + 1 by omega,
      CalcularTrazaLoop_step ctx n m1 m2 (fuel + steps) i trace (by omega) h1, h2]
    simp only [Bool.false_eq_true, if_false]
    rw [ih fuel (i + 1) _ (by omega) (fun j hj1 hj2 => hctx j (by omega) hj2),
      Finset.sum_eq_sum_Ico_succ_bot hlt]
    congr 1
    ring

/-- The trace of the product in the words of the specification is the double
sum over rows and columns. -/
theorem traceOfProduct_eq_sum (n : Nat) (m1 m2 : Int → Int → Int) :
    traceOfProduct n m1 m2 = ∑ i in Finset.range n, ∑ k in Finset.range n, m1 i k * m2 k i := by
  unfold traceOfProduct
  simp only [Matrix.trace, Matrix.diag_apply, Matrix.mul_apply, Matrix.of_apply]
  rw [Finset.sum_range (fun i => ∑ k in Finset.range n, m1 i k * m2 k i)]
  refine Finset.sum_congr rfl (fun i _ => ?_)
  rw [Finset.sum_range (fun k => m1 (i : Nat) k * m2 k (i : Nat))]
/-- When the matrices can be allocated the function runs its loop. -/
theorem CalcularTraza_unfold (rt : Runtime) (ctx : Context) (n : Nat) (hfit : n ≤ rt.maxDim)
    (m1 m2 : Int → Int → Int) :
    CalcularTrazaDeProductoDeMatrices rt ctx n m1 m2 =
      CalcularTrazaLoop ctx n m1 m2 (n + 1) 0 0 := by
  have hn : ¬ ((n : Int) < 0 ∨ rt.maxDim < (n : Int).toNat) := by
    rw [Int.toNat_ofNat]
    omega
  rw [CalcularTrazaDeProductoDeMatrices, if_neg hn, Int.toNat_ofNat]

/-- The function panics in `make`, before any poll of the token, for a
negative dimension and for one whose matrices cannot be allocated. -/
theorem CalcularTraza_panicked (rt : Runtime) (ctx : Context) (n : Int)
    (m1 m2 : Int → Int → Int) (h : n < 0 ∨ (rt.maxDim : Int) < n) :
    CalcularTrazaDeProductoDeMatrices rt ctx n m1 m2 = .panicked := by
  have h' : n < 0 ∨ rt.maxDim < n.toNat := by omega
  rw [CalcularTrazaDeProductoDeMatrices, if_pos h']

/-- No run-time can allocate matrices of a dimension above `2^48`. -/
theorem maxDim_lt_of_maxAlloc_lt (rt : Runtime) (n : Int) (h : (maxAlloc : Int) < n) :
    (rt.maxDim : Int) < n := by
  have h1 := rt.maxDim_le
  have h2 : 48 * rt.maxDim ≤ maxAlloc := le_trans (Nat.le_add_left _ _) h1
  omega

/-- Under a token that is never cancelled the function returns the full
double sum. -/
theorem CalcularTraza_background (rt : Runtime) (n : Nat) (hfit : n ≤ rt.maxDim)
    (m1 m2 : Int → Int → Int) :
    CalcularTrazaDeProductoDeMatrices rt Background n m1 m2 =
      .returned (partialTrace n n m1 m2) := by
  have hnn : ¬ (n : Int) < n := lt_irrefl _
  have h := CalcularTrazaLoop_advance Background n m1 m2 n (le_refl _) n 1 0 0 (by omega)
    (fun j _ _ => ⟨rfl, by simp [Background]⟩)
  rw [Nat.cast_zero] at h
  rw [CalcularTraza_unfold rt Background n hfit, Nat.add_comm, h, CalcularTrazaLoop,
    if_neg hnn]
  simp [partialTrace]

/-- The function returns under every token when the matrices can be
allocated: its budgets are never used up. -/
theorem CalcularTraza_returns (rt : Runtime) (ctx : Context) (n : Nat) (hfit : n ≤ rt.maxDim)
    (m1 m2 : Int → Int → Int) :
    ∃ t, CalcularTrazaDeProductoDeMatrices rt ctx n m1 m2 = .returned t := by
  rw [CalcularTraza_unfold rt ctx n hfit]
  have key : ∀ (fuel i : Nat) (trace : Int), n - i < fuel →
      ∃ t, CalcularTrazaLoop ctx n m1 m2 fuel i trace = .returned t := by
    intro fuel
    induction fuel with
    | zero => intro i trace h; omega
    | succ fuel ih =>
      intro i trace hfuel
      by_cases hi : i < n
      · by_cases hhead : ctx .loopHead i = true
        · have hi' : (i : Int) < n := by exact_mod_cast hi
          exact ⟨trace, by rw [CalcularTrazaLoop, if_pos hi', if_pos hhead]⟩
        · rw [CalcularTrazaLoop_step ctx n m1 m2 fuel i trace hi (by simpa using hhead)]
          by_cases hp : ((i : Int).tmod 10 == 0 && ctx .periodic i) = true
          · rw [if_pos hp]; exact ⟨_, rfl⟩
          · rw [if_neg hp]
            exact ih (i + 1) _ (by omega)
      · have hi' : ¬ (i : Int) < n := by exact_mod_cast hi
        exact ⟨trace, by rw [CalcularTrazaLoop, if_neg hi']⟩
  simpa using key (n + 1) 0 0 (by omega)

/-- Whenever the function returns, the dimension is one it could allocate. -/
theorem CalcularTraza_fits (rt : Runtime) (ctx : Context) (n : Int) (m1 m2 : Int → Int → Int)
    (h : CalcularTrazaDeProductoDeMatrices rt ctx n m1 m2 ≠ .panicked) :
    0 ≤ n ∧ n ≤ rt.maxDim := by
  by_contra hcon
  apply h
  apply CalcularTraza_panicked
  omega

theorem tmod_ten_natCast (j : Nat) : ((j : Int).tmod 10 == 0) = decide (j % 10 = 0) := by
  have h : (j : Int).tmod 10 = ((j % 10 : Nat) : Int) := (Int.ofNat_tmod j 10).symm
  have e : (((j % 10 : Nat) : Int) == 0) = decide (((j % 10 : Nat) : Int) = 0) := rfl
  rw [h, e, decide_eq_decide]
  exact ⟨fun h0 => by exact_mod_cast h0, fun h0 => by exact_mod_cast h0⟩

/-- A run whose polls find nothing before row `r` reaches row `r` with the
sum of the rows before `r`. -/
theorem CalcularTraza_reaches (rt : Runtime) (ctx : Context) (n : Nat) (hfit : n ≤ rt.maxDim)
    (m1 m2 : Int → Int → Int) (r : Nat) (hr : r ≤ n)
    (hhead : ∀ j : Nat, j < r → ctx .loopHead j = false)
    (hper : ∀ j : Nat, j < r → j % 10 = 0 → ctx .periodic j = false) :
    CalcularTrazaDeProductoDeMatrices rt ctx n m1 m2 =
      CalcularTrazaLoop ctx n m1 m2 (n + 1 - r) r (partialTrace n r m1 m2) := by
  have h := CalcularTrazaLoop_advance ctx n m1 m2 r hr r (n + 1 - r) 0 0 (by omega)
    (fun j _ hj => ⟨hhead j hj, by
      rw [tmod_ten_natCast]
      by_cases h10 : j % 10 = 0
      · simp [hper j hj h10]
      · simp [h10]⟩)
  rw [Nat.cast_zero] at h
  rw [CalcularTraza_unfold rt ctx n hfit, show n + 1 = n + 1 - r + r by omega, h]
  simp [partialTrace]

/-- C5 (as amended). For every dimension `n ≥ 0` whose matrices can be
allocated and all `n × n` integer matrices `m1`, `m2`, with a token that is
never cancelled the function returns the trace of the product `m1 * m2`, the
sum over `i` and `k` of `m1[i][k] * m2[k][i]`.  When the poll at the head of
row `r` is the first to find the token cancelled, it returns the sum over
the rows `i < r`; when the periodic poll made after row `r` (a multiple of
10) is the first, it returns the sum over the rows `i ≤ r`. -/
theorem CalcularTraza_trace (rt : Runtime) (n : Nat) (hfit : n ≤ rt.maxDim)
    (m1 m2 : Int → Int → Int) :
    CalcularTrazaDeProductoDeMatrices rt Background n m1 m2 =
      .returned (traceOfProduct n m1 m2) ∧
    traceOfProduct n m1 m2 =
      ∑ i in Finset.range n, ∑ k in Finset.range n, m1 i k * m2 k i ∧
    (∀ (ctx : Context) (r : Nat), r < n →
      (∀ j : Nat, j < r → ctx .loopHead j = false) →
      (∀ j : Nat, j < r → j % 10 = 0 → ctx .periodic j = false) →
      ctx .loopHead r = true →
      CalcularTrazaDeProductoDeMatrices rt ctx n m1 m2 =
        .returned (∑ i in Finset.range r, ∑ k in Finset.range n, m1 i k * m2 k i)) ∧
    (∀ (ctx : Context) (r : Nat), r < n → r % 10 = 0 →
      (∀ j : Nat, j ≤ r → ctx .loopHead j = false) →
      (∀ j : Nat, j < r → j % 10 = 0 → ctx .periodic j = false) →
      ctx .periodic r = true →
      CalcularTrazaDeProductoDeMatrices rt ctx n m1 m2 =
        .returned (∑ i in Finset.range (r + 1), ∑ k in Finset.range n, m1 i k * m2 k i)) := by
  refine ⟨?_, traceOfProduct_eq_sum n m1 m2, ?_, ?_⟩
  · rw [CalcularTraza_background rt n hfit, traceOfProduct_eq_sum, partialTrace]
  · intro ctx r hr hhead hper hcancel
    have hr' : (r : Int) < n := by exact_mod_cast hr
    rw [CalcularTraza_reaches rt ctx n hfit m1 m2 r (by omega) hhead hper,
      show n + 1 - r = (n - r) + 1 by omega, CalcularTrazaLoop, if_pos hr', if_pos hcancel,
      partialTrace]
  · intro ctx r hr hmod hhead hper hcancel
    have hp : ((r : Int).tmod 10 == 0 && ctx .periodic r) = true := by
      rw [tmod_ten_natCast]
      simp [hmod, hcancel]
    rw [CalcularTraza_reaches rt ctx n hfit m1 m2 r (by omega) (fun j hj => hhead j (by omega))
        hper,
      show n + 1 - r = (n - r) + 1 by omega,
      CalcularTrazaLoop_step ctx n m1 m2 (n - r) r _ hr (hhead r (le_refl _)), if_pos hp,
      partialTrace, Finset.sum_range_succ]

/-- Witness for C5: the `2 × 2` matrices with `m1[i][k] = i + k` and
`m2[k][i] = k * i + 1`; the trace of the product is 6, and a token cancelled
from row 1 on leaves the sum of row 0, which is 1. -/
theorem CalcularTraza_trace_witness :
    (2 : Nat) ≤ smallRuntime.maxDim ∧
    CalcularTrazaDeProductoDeMatrices smallRuntime Background 2 (fun i k => i + k)
      (fun k i => k * i + 1) = .returned 6 ∧
    traceOfProduct 2 (fun i k => i + k) (fun k i => k * i + 1) = 6 ∧
    CalcularTrazaDeProductoDeMatrices smallRuntime (fun _ i => decide (1 ≤ i)) 2
      (fun i k => i + k) (fun k i => k * i + 1) = .returned 1 :=
  have h := CalcularTraza_trace smallRuntime 2 (by decide) (fun i k => i + k)
    (fun k i => k * i + 1)
  have h6 : traceOfProduct 2 (fun i k => i + k) (fun k i => k * i + 1) = 6 := by
    rw [h.2.1]; decide
  ⟨by decide, h6 ▸ h.1, h6,
    (h.2.2.1 (fun _ i => decide (1 ≤ i)) 1 (by decide)
      (fun j hj => by interval_cases j; rfl)
      (fun j hj _ => by interval_cases j; rfl) (by decide)).trans (by decide)⟩

/-- C5, counterexample to the claim as stated.  For the `2 × 2` matrices of
ones, let the token be cancelled after the poll at the head of row 0 and
before the periodic poll that follows row 0.  The cancellation is observed at
row `r = 0`, and the function returns 2, the product of row 0 and column 0,
while the sum over the rows `i < 0` is 0.  And for the dimension `2^62` the
function returns nothing at all: it panics in `make`, whatever the run-time,
the token and the entries. -/
theorem CalcularTraza_cancelled_after_row :
    (fun (site : PollSite) (i : Int) => decide (site = .periodic ∨ 1 ≤ i)) .loopHead 0 = false ∧
    (fun (site : PollSite) (i : Int) => decide (site = .periodic ∨ 1 ≤ i)) .periodic 0 = true ∧
    CalcularTrazaDeProductoDeMatrices smallRuntime
      (fun site i => decide (site = .periodic ∨ 1 ≤ i)) 2 (fun _ _ => 1) (fun _ _ => 1) =
        .returned 2 ∧
    partialTrace 2 0 (fun _ _ => 1) (fun _ _ => 1) = 0 ∧
    CalcularTrazaDeProductoDeMatrices smallRuntime
      (fun site i => decide (site = .periodic ∨ 1 ≤ i)) 2 (fun _ _ => 1) (fun _ _ => 1) ≠
        .returned (partialTrace 2 0 (fun _ _ => 1) (fun _ _ => 1)) ∧
    (∀ (rt : Runtime) (ctx : Context) (m1 m2 : Int → Int → Int),
      CalcularTrazaDeProductoDeMatrices rt ctx 4611686018427387904 m1 m2 = .panicked) := by
  refine ⟨by decide, by decide, by decide, by decide, ?_, ?_⟩
  · rw [show partialTrace 2 0 (fun _ _ => 1) (fun _ _ => 1) = 0 by decide]
    decide
  · intro rt ctx m1 m2
    apply CalcularTraza_panicked
    right
    apply maxDim_lt_of_maxAlloc_lt
    decide

/-! ## Execution modes -/

/-- A string that starts with another first character is a different string. -/
theorem append_ne_of_head_ne (c d : Char) (cs ds : List Char) (s : String) (h : c ≠ d) :
    String.mk (c :: cs) ++ s ≠ String.mk (d :: ds) := by
  intro heq
  have hdata := congrArg String.data heq
  rw [String.data_append] at hdata
  exact h (List.cons.inj hdata).1

theorem nonce_ne_timeout (s : String) : "nonce=" ++ s ≠ "timeout_waiting_A" :=
  append_ne_of_head_ne 'n' 't' _ _ s (by decide)

theorem primes_ne_timeout (s : String) : "primes=" ++ s ≠ "timeout_waiting_B" :=
  append_ne_of_head_ne 'p' 't' _ _ s (by decide)

/-- When the target prefix can be allocated the read of `chA` delivers a
message or nothing, and nothing exactly when `SimularProofOfWork` has not
returned within the steps it had. -/
theorem readChA_returns (rt : Runtime) (ctx : Context) (powData : List UInt8) (powDiff : Int)
    (steps : Nat) (dur : Int) (hd : 0 ≤ powDiff) (hfit : powDiff ≤ rt.maxString) :
    ∃ fromA, readChA rt ctx powData powDiff steps dur = .returned fromA ∧
      (fromA = none ↔ SimularProofOfWork rt ctx powData powDiff steps = .outOfFuel) := by
  unfold readChA
  cases h : SimularProofOfWork rt ctx powData powDiff steps with
  | returned v =>
    obtain ⟨hash, nonce⟩ := v
    exact ⟨some ⟨hash, nonce, dur⟩, rfl, by simp⟩
  | outOfFuel => exact ⟨none, rfl, by simp⟩
  | panicked =>
    have := (SimularProofOfWork_panicked_iff rt ctx powData powDiff steps).mp h
    omega

/-- A read of `chA` that delivers something, or nothing, was made in a run
whose goroutine A did not panic: the target prefix was allocated. -/
theorem readChA_fits (rt : Runtime) (ctx : Context) (powData : List UInt8) (powDiff : Int)
    (steps : Nat) (dur : Int) (fromA : Option resA)
    (h : readChA rt ctx powData powDiff steps dur = .returned fromA) :
    0 ≤ powDiff ∧ powDiff ≤ rt.maxString := by
  apply SimularProofOfWork_fits rt ctx powData powDiff steps
  intro hp
  rw [readChA, hp] at h
  exact Outcome.noConfusion h

/-- The read of `chB` delivers a message or nothing, and nothing exactly when
the result has not arrived. -/
theorem readChB_returns (ctx : Context) (primesMax : Int) (arrived : Bool) (dur : Int) :
    ∃ fromB, readChB ctx primesMax arrived dur = .returned fromB ∧
      (fromB = none ↔ arrived = false) := by
  obtain ⟨primes, hp⟩ := EncontrarPrimos_returns ctx primesMax
  unfold readChB
  rw [hp]
  cases arrived with
  | false => exact ⟨none, rfl, by simp⟩
  | true => exact ⟨some ⟨primes.length, dur⟩, rfl, by simp⟩

/-- The record of a speculative run, branch A chosen. -/
theorem ejecucionEspeculativa_A (rt : Runtime) (runID n umbral : Int) (powData : List UInt8)
    (powDiff primesMax : Int) (m1 m2 : Int → Int → Int) (env : SpecEnv) (trace : Int)
    (fromA : Option resA) (fromB : Option resB)
    (ht : CalcularTrazaDeProductoDeMatrices rt Background n m1 m2 = .returned trace)
    (hge : trace ≥ umbral)
    (hA : readChA rt Background powData powDiff env.stepsA env.durA = .returned fromA)
    (hB : readChB env.ctxB primesMax env.arrivedB env.durB = .returned fromB) :
    ejecucionEspeculativa rt runID n umbral powData powDiff primesMax m1 m2 env =
      .returned (recordChosenA runID trace env fromA fromB) := by
  simp only [ejecucionEspeculativa, ht, if_pos hge, hA, hB, recordChosenA]

/-- The record of a speculative run, branch B chosen. -/
theorem ejecucionEspeculativa_B (rt : Runtime) (runID n umbral : Int) (powData : List UInt8)
    (powDiff primesMax : Int) (m1 m2 : Int → Int → Int) (env : SpecEnv) (trace : Int)
    (fromA : Option resA) (fromB : Option resB)
    (ht : CalcularTrazaDeProductoDeMatrices rt Background n m1 m2 = .returned trace)
    (hlt : ¬ trace ≥ umbral)
    (hA : readChA rt env.ctxA powData powDiff env.stepsA env.durA = .returned fromA)
    (hB : readChB Background primesMax env.arrivedB env.durB = .returned fromB) :
    ejecucionEspeculativa rt runID n umbral powData powDiff primesMax m1 m2 env =
      .returned (recordChosenB runID trace env fromA fromB) := by
  simp only [ejecucionEspeculativa, ht, if_neg hlt, hA, hB, recordChosenB]

/-- A speculative run that returns a record has read a trace from the oracle
and has built the record in one of the two blocks. -/
theorem ejecucionEspeculativa_cases (rt : Runtime) (runID n umbral : Int)
    (powData : List UInt8) (powDiff primesMax : Int) (m1 m2 : Int → Int → Int) (env : SpecEnv)
    (r : RunRecord)
    (h : ejecucionEspeculativa rt runID n umbral powData powDiff primesMax m1 m2 env =
      .returned r) :
    ∃ (trace : Int) (fromA : Option resA) (fromB : Option resB),
      CalcularTrazaDeProductoDeMatrices rt Background n m1 m2 = .returned trace ∧
      ((trace ≥ umbral ∧
          readChA rt Background powData powDiff env.stepsA env.durA = .returned fromA ∧
          readChB env.ctxB primesMax env.arrivedB env.durB = .returned fromB ∧
          r = recordChosenA runID trace env fromA fromB) ∨
       (¬ trace ≥ umbral ∧
          readChA rt env.ctxA powData powDiff env.stepsA env.durA = .returned fromA ∧
          readChB Background primesMax env.arrivedB env.durB = .returned fromB ∧
          r = recordChosenB runID trace env fromA fromB)) := by
  cases ht : CalcularTrazaDeProductoDeMatrices rt Background n m1 m2 with
  | returned t =>
    by_cases hge : t ≥ umbral
    · cases hA : readChA rt Background powData powDiff env.stepsA env.durA with
      | returned fromA =>
        cases hB : readChB env.ctxB primesMax env.arrivedB env.durB with
        | returned fromB =>
          rw [ejecucionEspeculativa_A rt runID n umbral powData powDiff primesMax m1 m2 env t
            fromA fromB ht hge hA hB] at h
          exact ⟨t, fromA, fromB, rfl, Or.inl ⟨hge, rfl, rfl, (Outcome.returned.inj h).symm⟩⟩
        | panicked => simp [ejecucionEspeculativa, ht, hge, hA, hB] at h
        | outOfFuel => simp [ejecucionEspeculativa, ht, hge, hA, hB] at h
      | panicked => simp [ejecucionEspeculativa, ht, hge, hA] at h
      | outOfFuel =>
        cases hB : readChB env.ctxB primesMax env.arrivedB env.durB with
        | returned fromB => simp [ejecucionEspeculativa, ht, hge, hA, hB] at h
        | panicked => simp [ejecucionEspeculativa, ht, hge, hA, hB] at h
        | outOfFuel => simp [ejecucionEspeculativa, ht, hge, hA, hB] at h
    · cases hA : readChA rt env.ctxA powData powDiff env.stepsA env.durA with
      | returned fromA =>
        cases hB : readChB Background primesMax env.arrivedB env.durB with
        | returned fromB =>
          rw [ejecucionEspeculativa_B rt runID n umbral powData powDiff primesMax m1 m2 env t
            fromA fromB ht hge hA hB] at h
          exact ⟨t, fromA, fromB, rfl, Or.inr ⟨hge, rfl, rfl, (Outcome.returned.inj h).symm⟩⟩
        | panicked => simp [ejecucionEspeculativa, ht, hge, hA, hB] at h
        | outOfFuel => simp [ejecucionEspeculativa, ht, hge, hA, hB] at h
      | panicked => simp [ejecucionEspeculativa, ht, hge, hA] at h
      | outOfFuel =>
        cases hB : readChB Background primesMax env.arrivedB env.durB with
        | returned fromB => simp [ejecucionEspeculativa, ht, hge, hA, hB] at h
        | panicked => simp [ejecucionEspeculativa, ht, hge, hA, hB] at h
        | outOfFuel => simp [ejecucionEspeculativa, ht, hge, hA, hB] at h
  | panicked => simp [ejecucionEspeculativa, ht] at h
  | outOfFuel => simp [ejecucionEspeculativa, ht] at h

/-- A speculative run that returns has recorded the oracle's trace and has
chosen by the threshold comparison. -/
theorem ejecucionEspeculativa_chosen (rt : Runtime) (runID n umbral : Int)
    (powData : List UInt8) (powDiff primesMax : Int) (m1 m2 : Int → Int → Int) (env : SpecEnv)
    (r : RunRecord)
    (h : ejecucionEspeculativa rt runID n umbral powData powDiff primesMax m1 m2 env =
      .returned r) :
    CalcularTrazaDeProductoDeMatrices rt Background n m1 m2 = .returned r.trace ∧
    r.chosen = (if r.trace ≥ umbral then "A" else "B") := by
  obtain ⟨t, fromA, fromB, ht, hcase⟩ :=
    ejecucionEspeculativa_cases rt runID n umbral powData powDiff primesMax m1 m2 env r h
  rcases hcase with ⟨hge, _, _, hr⟩ | ⟨hge, _, _, hr⟩
  · subst hr
    exact ⟨ht, by simp only [recordChosenA, if_pos hge]⟩
  · subst hr
    exact ⟨ht, by simp only [recordChosenB, if_neg hge]⟩

/-- A speculative run returns a record once the oracle has returned and the
goroutine of branch A has not panicked. -/
theorem ejecucionEspeculativa_returns_of_trace (rt : Runtime) (runID n umbral : Int)
    (powData : List UInt8) (powDiff primesMax : Int) (m1 m2 : Int → Int → Int) (env : SpecEnv)
    (trace : Int)
    (ht : CalcularTrazaDeProductoDeMatrices rt Background n m1 m2 = .returned trace)
    (hd : 0 ≤ powDiff) (hfit : powDiff ≤ rt.maxString) :
    ∃ r, ejecucionEspeculativa rt runID n umbral powData powDiff primesMax m1 m2 env =
      .returned r := by
  by_cases hge : trace ≥ umbral
  · obtain ⟨fromA, hA, _⟩ :=
      readChA_returns rt Background powData powDiff env.stepsA env.durA hd hfit
    obtain ⟨fromB, hB, _⟩ := readChB_returns env.ctxB primesMax env.arrivedB env.durB
    exact ⟨_, ejecucionEspeculativa_A rt runID n umbral powData powDiff primesMax m1 m2 env
      trace fromA fromB ht hge hA hB⟩
  · obtain ⟨fromA, hA, _⟩ :=
      readChA_returns rt env.ctxA powData powDiff env.stepsA env.durA hd hfit
    obtain ⟨fromB, hB, _⟩ := readChB_returns Background primesMax env.arrivedB env.durB
    exact ⟨_, ejecucionEspeculativa_B rt runID n umbral powData powDiff primesMax m1 m2 env
      trace fromA fromB ht hge hA hB⟩

/-- A speculative run returns a record whenever the dimension and the
difficulty are not negative and can be allocated. -/
theorem ejecucionEspeculativa_returns (rt : Runtime) (runID n umbral : Int)
    (powData : List UInt8) (powDiff primesMax : Int) (m1 m2 : Int → Int → Int) (env : SpecEnv)
    (hn : 0 ≤ n) (hfitn : n ≤ rt.maxDim) (hd : 0 ≤ powDiff) (hfit : powDiff ≤ rt.maxString) :
    ∃ r, ejecucionEspeculativa rt runID n umbral powData powDiff primesMax m1 m2 env =
      .returned r := by
  obtain ⟨k, rfl⟩ : ∃ k : Nat, n = k := ⟨n.toNat, by omega⟩
  obtain ⟨t, ht⟩ := CalcularTraza_returns rt Background k (by omega) m1 m2
  exact ejecucionEspeculativa_returns_of_trace rt runID k umbral powData powDiff primesMax
    m1 m2 env t ht hd hfit

/-- The record of a sequential run, branch A chosen. -/
theorem ejecucionSecuencial_A (rt : Runtime) (runID n umbral : Int) (powData : List UInt8)
    (powDiff primesMax : Int) (m1 m2 : Int → Int → Int) (clock : SeqClock) (fuel : Nat)
    (trace : Int) (hash : String) (nonce : Int)
    (ht : CalcularTrazaDeProductoDeMatrices rt Background n m1 m2 = .returned trace)
    (hge : trace ≥ umbral)
    (hA : SimularProofOfWork rt Background powData powDiff fuel = .returned (hash, nonce)) :
    ejecucionSecuencial rt runID n umbral powData powDiff primesMax m1 m2 clock fuel =
      .returned ⟨runID, "seq", trace, "A", clock.tTrace, clock.dBranch, 0, clock.total,
        if nonce ≥ 0 then "nonce=" ++ Itoa nonce else "A_cancelled"⟩ := by
  simp only [ejecucionSecuencial, ht, if_pos hge, hA]

/-- The record of a sequential run, branch B chosen. -/
theorem ejecucionSecuencial_B (rt : Runtime) (runID n umbral : Int) (powData : List UInt8)
    (powDiff primesMax : Int) (m1 m2 : Int → Int → Int) (clock : SeqClock) (fuel : Nat)
    (trace : Int) (primes : List Int)
    (ht : CalcularTrazaDeProductoDeMatrices rt Background n m1 m2 = .returned trace)
    (hlt : ¬ trace ≥ umbral)
    (hB : EncontrarPrimos Background primesMax = .returned primes) :
    ejecucionSecuencial rt runID n umbral powData powDiff primesMax m1 m2 clock fuel =
      .returned ⟨runID, "seq", trace, "B", clock.tTrace, 0, clock.dBranch, clock.total,
        "primes=" ++ Itoa primes.length⟩ := by
  simp only [ejecucionSecuencial, ht, if_neg hlt, hB]

/-- A sequential run that returns has chosen by the threshold comparison. -/
theorem ejecucionSecuencial_chosen (rt : Runtime) (runID n umbral : Int) (powData : List UInt8)
    (powDiff primesMax : Int) (m1 m2 : Int → Int → Int) (clock : SeqClock) (fuel : Nat)
    (r : RunRecord)
    (h : ejecucionSecuencial rt runID n umbral powData powDiff primesMax m1 m2 clock fuel =
      .returned r) :
    CalcularTrazaDeProductoDeMatrices rt Background n m1 m2 = .returned r.trace ∧
    r.chosen = (if r.trace ≥ umbral then "A" else "B") := by
  unfold ejecucionSecuencial at h
  cases ht : CalcularTrazaDeProductoDeMatrices rt Background n m1 m2 with
  | returned t =>
    simp only [ht] at h
    by_cases hge : t ≥ umbral
    · simp only [if_pos hge] at h
      cases hp : SimularProofOfWork rt Background powData powDiff fuel with
      | returned v =>
        obtain ⟨hash, nonce⟩ := v
        simp only [hp] at h
        injection h with h
        subst h
        simp [hge]
      | panicked => simp [hp] at h
      | outOfFuel => simp [hp] at h
    · simp only [if_neg hge] at h
      cases hp : EncontrarPrimos Background primesMax with
      | returned primes =>
        simp only [hp] at h
        injection h with h
        subst h
        simp [hge]
      | panicked => simp [hp] at h
      | outOfFuel => simp [hp] at h
  | panicked => simp [ht] at h
  | outOfFuel => simp [ht] at h

/-- C1. In `ejecucionEspeculativa` and in `ejecucionSecuencial` the recorded
trace is the value the oracle returned, and the chosen branch is `"A"` when
`trace ≥ umbral` and `"B"` when `trace < umbral`; no other value is recorded,
and a speculative and a sequential run with the same trace and threshold
choose the same branch.  Both modes do record a result on both sides of the
threshold: a speculative run whenever the dimension and the difficulty are
not negative and can be allocated, a sequential run with a trace below the
threshold always, and one with a trace at or above it as soon as
`SimularProofOfWork` returns. -/
theorem chosen_by_threshold (rt : Runtime) (umbral : Int) (runID n : Int)
    (powData : List UInt8) (powDiff primesMax : Int) (m1 m2 : Int → Int → Int) (env : SpecEnv)
    (runID' n' : Int) (powData' : List UInt8) (powDiff' primesMax' : Int)
    (m1' m2' : Int → Int → Int) (clock : SeqClock) (fuel : Nat) :
    (∀ r, ejecucionEspeculativa rt runID n umbral powData powDiff primesMax m1 m2 env =
        .returned r →
      CalcularTrazaDeProductoDeMatrices rt Background n m1 m2 = .returned r.trace ∧
      (r.trace ≥ umbral → r.chosen = "A") ∧ (r.trace < umbral → r.chosen = "B") ∧
      (r.chosen = "A" ∨ r.chosen = "B")) ∧
    (∀ r, ejecucionSecuencial rt runID' n' umbral powData' powDiff' primesMax' m1' m2' clock
        fuel = .returned r →
      CalcularTrazaDeProductoDeMatrices rt Background n' m1' m2' = .returned r.trace ∧
      (r.trace ≥ umbral → r.chosen = "A") ∧ (r.trace < umbral → r.chosen = "B") ∧
      (r.chosen = "A" ∨ r.chosen = "B")) ∧
    (∀ r r', ejecucionEspeculativa rt runID n umbral powData powDiff primesMax m1 m2 env =
        .returned r →
      ejecucionSecuencial rt runID' n' umbral powData' powDiff' primesMax' m1' m2' clock fuel =
        .returned r' →
      r.trace = r'.trace → r.chosen = r'.chosen) ∧
    (∀ trace, CalcularTrazaDeProductoDeMatrices rt Background n m1 m2 = .returned trace →
      0 ≤ powDiff → powDiff ≤ rt.maxString →
      ∃ r, ejecucionEspeculativa rt runID n umbral powData powDiff primesMax m1 m2 env =
          .returned r ∧
        r.trace = trace ∧ r.chosen = (if trace ≥ umbral then "A" else "B")) ∧
    (0 ≤ n → n ≤ rt.maxDim → 0 ≤ powDiff → powDiff ≤ rt.maxString →
      ∃ r, ejecucionEspeculativa rt runID n umbral powData powDiff primesMax m1 m2 env =
        .returned r) ∧
    (∀ trace, CalcularTrazaDeProductoDeMatrices rt Background n' m1' m2' = .returned trace →
      trace < umbral →
      ∃ r, ejecucionSecuencial rt runID' n' umbral powData' powDiff' primesMax' m1' m2' clock
          fuel = .returned r ∧
        r.trace = trace ∧ r.chosen = "B") ∧
    (∀ (trace : Int) (hash : String) (nonce : Int),
      CalcularTrazaDeProductoDeMatrices rt Background n' m1' m2' = .returned trace →
      trace ≥ umbral →
      SimularProofOfWork rt Background powData' powDiff' fuel = .returned (hash, nonce) →
      ∃ r, ejecucionSecuencial rt runID' n' umbral powData' powDiff' primesMax' m1' m2' clock
          fuel = .returned r ∧
        r.trace = trace ∧ r.chosen = "A") := by
  have key : ∀ r : RunRecord, r.chosen = (if r.trace ≥ umbral then "A" else "B") →
      (r.trace ≥ umbral → r.chosen = "A") ∧ (r.trace < umbral → r.chosen = "B") ∧
      (r.chosen = "A" ∨ r.chosen = "B") := by
    intro r hr
    by_cases hge : r.trace ≥ umbral
    · rw [if_pos hge] at hr
      exact ⟨fun _ => hr, fun hlt => by omega, Or.inl hr⟩
    · rw [if_neg hge] at hr
      exact ⟨fun h => absurd h hge, fun _ => hr, Or.inr hr⟩
  refine ⟨?_, ?_, ?_, ?_,
    ejecucionEspeculativa_returns rt runID n umbral powData powDiff primesMax m1 m2 env,
    ?_, ?_⟩
  · intro r h
    have hs := ejecucionEspeculativa_chosen rt runID n umbral powData powDiff primesMax m1 m2
      env r h
    exact ⟨hs.1, key r hs.2⟩
  · intro r h
    have hs := ejecucionSecuencial_chosen rt runID' n' umbral powData' powDiff' primesMax'
      m1' m2' clock fuel r h
    exact ⟨hs.1, key r hs.2⟩
  · intro r r' h h' heq
    rw [(ejecucionEspeculativa_chosen rt runID n umbral powData powDiff primesMax m1 m2
        env r h).2,
      (ejecucionSecuencial_chosen rt runID' n' umbral powData' powDiff' primesMax' m1' m2'
        clock fuel r' h').2, heq]
  · intro trace ht hd hfit
    obtain ⟨r, hr⟩ := ejecucionEspeculativa_returns_of_trace rt runID n umbral powData powDiff
      primesMax m1 m2 env trace ht hd hfit
    have hs := ejecucionEspeculativa_chosen rt runID n umbral powData powDiff primesMax m1 m2
      env r hr
    have htr : r.trace = trace := Outcome.returned.inj (hs.1.symm.trans ht)
    exact ⟨r, hr, htr, by rw [hs.2, htr]⟩
  · intro trace ht hlt
    obtain ⟨primes, hp⟩ := EncontrarPrimos_returns Background primesMax'
    exact ⟨_, ejecucionSecuencial_B rt runID' n' umbral powData' powDiff' primesMax' m1' m2'
      clock fuel trace primes ht (by omega) hp, rfl, rfl⟩
  · intro trace hash nonce ht hge hA
    exact ⟨_, ejecucionSecuencial_A rt runID' n' umbral powData' powDiff' primesMax' m1' m2'
      clock fuel trace hash nonce ht hge hA, rfl, rfl⟩

/-- C6. In a speculative run the salvage read of the losing branch changes
nothing but that branch's elapsed field: two runs that differ only in what
concerns the loser's result at the non-blocking read (whether it has
arrived, and with what value) record the same chosen branch, the same
annotation and the same elapsed time of the chosen branch, and indeed the
same record apart from the loser's elapsed field.  (Such runs exist: a run
records a result whenever the dimension and the difficulty are not negative
and can be allocated.) -/
theorem salvage_changes_only_loser_elapsed (rt : Runtime) (runID n umbral : Int)
    (powData : List UInt8) (powDiff primesMax : Int) (m1 m2 : Int → Int → Int)
    (env : SpecEnv) :
    (∀ r1, ejecucionEspeculativa rt runID n umbral powData powDiff primesMax m1 m2 env =
        .returned r1 →
      (r1.chosen = "A" → ∀ (ctxB : Context) (arrivedB : Bool) (durB : Int), ∃ r2,
        ejecucionEspeculativa rt runID n umbral powData powDiff primesMax m1 m2
          { env with ctxB := ctxB, arrivedB := arrivedB, durB := durB } = .returned r2 ∧
        r2.chosen = r1.chosen ∧ r2.extra = r1.extra ∧ r2.tA = r1.tA ∧
        r2 = { r1 with tB := r2.tB }) ∧
      (r1.chosen = "B" → ∀ (ctxA : Context) (stepsA : Nat) (durA : Int), ∃ r2,
        ejecucionEspeculativa rt runID n umbral powData powDiff primesMax m1 m2
          { env with ctxA := ctxA, stepsA := stepsA, durA := durA } = .returned r2 ∧
        r2.chosen = r1.chosen ∧ r2.extra = r1.extra ∧ r2.tB = r1.tB ∧
        r2 = { r1 with tA := r2.tA })) ∧
    (0 ≤ n → n ≤ rt.maxDim → 0 ≤ powDiff → powDiff ≤ rt.maxString →
      ∃ r1, ejecucionEspeculativa rt runID n umbral powData powDiff primesMax m1 m2 env =
        .returned r1) := by
  refine ⟨?_,
    ejecucionEspeculativa_returns rt runID n umbral powData powDiff primesMax m1 m2 env⟩
  intro r1 h1
  obtain ⟨t, fromA, fromB, ht, hcase⟩ :=
    ejecucionEspeculativa_cases rt runID n umbral powData powDiff primesMax m1 m2 env r1 h1
  constructor
  · intro hch ctxB arrivedB durB
    rcases hcase with ⟨hge, hA, _, hr⟩ | ⟨_, _, _, hr⟩
    · obtain ⟨fromB', hB', _⟩ := readChB_returns ctxB primesMax arrivedB durB
      refine ⟨_, ejecucionEspeculativa_A rt runID n umbral powData powDiff primesMax m1 m2
        { env with ctxB := ctxB, arrivedB := arrivedB, durB := durB } t fromA fromB' ht hge
        hA hB', ?_⟩
      subst hr
      exact ⟨rfl, rfl, rfl, rfl⟩
    · subst hr
      exact absurd (show ("B" : String) = "A" from hch) (by decide)
  · intro hch ctxA stepsA durA
    rcases hcase with ⟨_, _, _, hr⟩ | ⟨hge, hA, hB, hr⟩
    · subst hr
      exact absurd (show ("A" : String) = "B" from hch) (by decide)
    · obtain ⟨hd, hfit⟩ := readChA_fits rt env.ctxA powData powDiff env.stepsA env.durA fromA hA
      obtain ⟨fromA', hA', _⟩ := readChA_returns rt ctxA powData powDiff stepsA durA hd hfit
      refine ⟨_, ejecucionEspeculativa_B rt runID n umbral powData powDiff primesMax m1 m2
        { env with ctxA := ctxA, stepsA := stepsA, durA := durA } t fromA' fromB ht hge
        hA' hB, ?_⟩
      subst hr
      exact ⟨rfl, rfl, rfl, rfl⟩

/-- The annotation built in the block of branch A is a timeout marker exactly
when the read of `chA` delivered nothing. -/
theorem recordChosenA_timeout (runID trace : Int) (env : SpecEnv) (fromA : Option resA)
    (fromB : Option resB) :
    (fromA = none → (recordChosenA runID trace env fromA fromB).extra = "timeout_waiting_A" ∧
      (recordChosenA runID trace env fromA fromB).tA = 0) ∧
    ((recordChosenA runID trace env fromA fromB).extra = "timeout_waiting_A" ∨
      (recordChosenA runID trace env fromA fromB).extra = "timeout_waiting_B" → fromA = none) := by
  cases fromA with
  | none => exact ⟨fun _ => ⟨rfl, rfl⟩, fun _ => rfl⟩
  | some a =>
    refine ⟨fun h => Option.noConfusion h, ?_⟩
    simp only [recordChosenA]
    by_cases hnn : a.nonce ≥ 0
    · rw [if_pos hnn]
      rintro (hx | hx)
      · exact absurd hx (nonce_ne_timeout _)
      · exact absurd hx (append_ne_of_head_ne 'n' 't' _ _ _ (by decide))
    · rw [if_neg hnn]
      rintro (hx | hx)
      · exact absurd hx (by decide)
      · exact absurd hx (by decide)

/-- The annotation built in the block of branch B is a timeout marker exactly
when the read of `chB` delivered nothing. -/
theorem recordChosenB_timeout (runID trace : Int) (env : SpecEnv) (fromA : Option resA)
    (fromB : Option resB) :
    (fromB = none → (recordChosenB runID trace env fromA fromB).extra = "timeout_waiting_B" ∧
      (recordChosenB runID trace env fromA fromB).tB = 0) ∧
    ((recordChosenB runID trace env fromA fromB).extra = "timeout_waiting_A" ∨
      (recordChosenB runID trace env fromA fromB).extra = "timeout_waiting_B" → fromB = none) := by
  cases fromB with
  | none => exact ⟨fun _ => ⟨rfl, rfl⟩, fun _ => rfl⟩
  | some b =>
    refine ⟨fun h => Option.noConfusion h, ?_⟩
    simp only [recordChosenB]
    rintro (hx | hx)
    · exact absurd hx (append_ne_of_head_ne 'p' 't' _ _ _ (by decide))
    · exact absurd hx (primes_ne_timeout _)


/-- C7. In a speculative run, when the result of the chosen branch does not
arrive before the 60-second timer (branch A has not returned within the
steps it had, or the result of branch B has not arrived), the run still
returns a record, its annotation is exactly `"timeout_waiting_A"` (A chosen)
or `"timeout_waiting_B"` (B chosen), and the elapsed field of the chosen
branch is zero; and the annotation of a record is one of the two timeout
markers only in that case.  In particular a record with a difficulty above
64 and branch A chosen is the timeout record. -/
theorem timeout_marker (rt : Runtime) (runID n umbral : Int) (powData : List UInt8)
    (powDiff primesMax : Int) (m1 m2 : Int → Int → Int) (env : SpecEnv) :
    (∀ trace, CalcularTrazaDeProductoDeMatrices rt Background n m1 m2 = .returned trace →
      trace ≥ umbral →
      SimularProofOfWork rt Background powData powDiff env.stepsA = .outOfFuel →
      ∃ r, ejecucionEspeculativa rt runID n umbral powData powDiff primesMax m1 m2 env =
          .returned r ∧
        r.chosen = "A" ∧ r.extra = "timeout_waiting_A" ∧ r.tA = 0) ∧
    (∀ trace, CalcularTrazaDeProductoDeMatrices rt Background n m1 m2 = .returned trace →
      trace < umbral → 0 ≤ powDiff → powDiff ≤ rt.maxString → env.arrivedB = false →
      ∃ r, ejecucionEspeculativa rt runID n umbral powData powDiff primesMax m1 m2 env =
          .returned r ∧
        r.chosen = "B" ∧ r.extra = "timeout_waiting_B" ∧ r.tB = 0) ∧
    (∀ r, ejecucionEspeculativa rt runID n umbral powData powDiff primesMax m1 m2 env =
        .returned r →
      (r.chosen = "A" ∨ r.chosen = "B") ∧
      (r.chosen = "A" →
        SimularProofOfWork rt Background powData powDiff env.stepsA = .outOfFuel →
        r.extra = "timeout_waiting_A" ∧ r.tA = 0) ∧
      (r.chosen = "B" → env.arrivedB = false → r.extra = "timeout_waiting_B" ∧ r.tB = 0) ∧
      (r.extra = "timeout_waiting_A" ∨ r.extra = "timeout_waiting_B" →
        (r.chosen = "A" ∧ r.extra = "timeout_waiting_A" ∧ r.tA = 0 ∧
          SimularProofOfWork rt Background powData powDiff env.stepsA = .outOfFuel) ∨
        (r.chosen = "B" ∧ r.extra = "timeout_waiting_B" ∧ r.tB = 0 ∧
          env.arrivedB = false)) ∧
      (64 < powDiff → r.chosen = "A" → r.extra = "timeout_waiting_A" ∧ r.tA = 0)) ∧
    (0 ≤ n → n ≤ rt.maxDim → 0 ≤ powDiff → powDiff ≤ rt.maxString →
      ∃ r, ejecucionEspeculativa rt runID n umbral powData powDiff primesMax m1 m2 env =
        .returned r) := by
  refine ⟨?_, ?_, ?_,
    ejecucionEspeculativa_returns rt runID n umbral powData powDiff primesMax m1 m2 env⟩
  · intro trace ht hge hout
    obtain ⟨hd, hfit⟩ := SimularProofOfWork_fits rt Background powData powDiff env.stepsA
      (by rw [hout]; exact fun h => Outcome.noConfusion h)
    obtain ⟨fromA, hA, hnone⟩ :=
      readChA_returns rt Background powData powDiff env.stepsA env.durA hd hfit
    obtain ⟨fromB, hB, _⟩ := readChB_returns env.ctxB primesMax env.arrivedB env.durB
    obtain ⟨hto, _⟩ := recordChosenA_timeout runID trace env fromA fromB
    exact ⟨_, ejecucionEspeculativa_A rt runID n umbral powData powDiff primesMax m1 m2 env
      trace fromA fromB ht hge hA hB, rfl, hto (hnone.mpr hout)⟩
  · intro trace ht hlt hd hfit harr
    obtain ⟨fromA, hA, _⟩ :=
      readChA_returns rt env.ctxA powData powDiff env.stepsA env.durA hd hfit
    obtain ⟨fromB, hB, hnone⟩ := readChB_returns Background primesMax env.arrivedB env.durB
    obtain ⟨hto, _⟩ := recordChosenB_timeout runID trace env fromA fromB
    exact ⟨_, ejecucionEspeculativa_B rt runID n umbral powData powDiff primesMax m1 m2 env
      trace fromA fromB ht (by omega) hA hB, rfl, hto (hnone.mpr harr)⟩
  · intro r h
    obtain ⟨t, fromA, fromB, ht, hcase⟩ :=
      ejecucionEspeculativa_cases rt runID n umbral powData powDiff primesMax m1 m2 env r h
    rcases hcase with ⟨hge, hA, hB, hr⟩ | ⟨hge, hA, hB, hr⟩
    · obtain ⟨hd, hfit⟩ :=
        readChA_fits rt Background powData powDiff env.stepsA env.durA fromA hA
      obtain ⟨fromA', hA', hnone⟩ :=
        readChA_returns rt Background powData powDiff env.stepsA env.durA hd hfit
      have hfa : fromA' = fromA := Outcome.returned.inj (hA'.symm.trans hA)
      subst hfa
      obtain ⟨hto, honly⟩ := recordChosenA_timeout runID t env fromA' fromB
      have hout : SimularProofOfWork rt Background powData powDiff env.stepsA = .outOfFuel →
          r.extra = "timeout_waiting_A" ∧ r.tA = 0 := by
        intro ho
        rw [hr]
        exact hto (hnone.mpr ho)
      refine ⟨Or.inl (by rw [hr]; rfl), fun _ => hout,
        fun hB' => absurd (show ("A" : String) = "B" by rw [hr] at hB'; exact hB') (by decide),
        ?_, ?_⟩
      · intro hx
        rw [hr] at hx
        have hn' := honly hx
        refine Or.inl ⟨by rw [hr]; rfl, ?_, ?_, hnone.mp hn'⟩
        · rw [hr]
          exact (hto hn').1
        · rw [hr]
          exact (hto hn').2
      · intro h64 _
        exact hout
          ((SimularProofOfWork_unfold rt Background powData powDiff hd hfit env.stepsA).trans
            (loop_background_diverges powData _
              (fun j => no_long_prefix powData j powDiff.toNat (by omega)) env.stepsA 0))
    · obtain ⟨fromB', hB', hnone⟩ :=
        readChB_returns Background primesMax env.arrivedB env.durB
      have hfb : fromB' = fromB := Outcome.returned.inj (hB'.symm.trans hB)
      subst hfb
      obtain ⟨hto, honly⟩ := recordChosenB_timeout runID t env fromA fromB'
      refine ⟨Or.inr (by rw [hr]; rfl),
        fun hA' => absurd (show ("B" : String) = "A" by rw [hr] at hA'; exact hA') (by decide),
        ?_, ?_, ?_⟩
      · intro _ harr
        rw [hr]
        exact hto (hnone.mpr harr)
      · intro hx
        rw [hr] at hx
        have hn' := honly hx
        refine Or.inr ⟨by rw [hr]; rfl, ?_, ?_, hnone.mp hn'⟩
        · rw [hr]
          exact (hto hn').1
        · rw [hr]
          exact (hto hn').2
      · intro _ hA'
        exact absurd (show ("B" : String) = "A" by rw [hr] at hA'; exact hA') (by decide)

set_option maxRecDepth 100000 in
/-- Witness for C1: the `2 × 2` matrices with trace 6 (seed `"seed3"`,
difficulty 1, primes up to 10).  With the threshold 3 a speculative and a
sequential run both record trace 6 and choose `"A"`; with the threshold 7
both record trace 6 and choose `"B"`. -/
theorem chosen_by_threshold_witness :
    ejecucionEspeculativa smallRuntime 1 2 3 (bytesOf "seed3") 1 10 (fun i k => i + k)
        (fun k i => k * i + 1) ⟨5, 70, 3, fun _ _ => true, 40, true, fun _ _ => true, 20⟩ =
      .returned ⟨1, "spec", 6, "A", 5, 40, 20, 70, "nonce=2"⟩ ∧
    ejecucionSecuencial smallRuntime 1 2 3 (bytesOf "seed3") 1 10 (fun i k => i + k)
        (fun k i => k * i + 1) ⟨5, 40, 70⟩ 3 =
      .returned ⟨1, "seq", 6, "A", 5, 40, 0, 70, "nonce=2"⟩ ∧
    ejecucionEspeculativa smallRuntime 1 2 7 (bytesOf "seed3") 1 10 (fun i k => i + k)
        (fun k i => k * i + 1) ⟨5, 70, 3, fun _ _ => true, 40, true, fun _ _ => true, 20⟩ =
      .returned ⟨1, "spec", 6, "B", 5, 40, 20, 70, "primes=4"⟩ ∧
    ejecucionSecuencial smallRuntime 1 2 7 (bytesOf "seed3") 1 10 (fun i k => i + k)
        (fun k i => k * i + 1) ⟨5, 40, 70⟩ 3 =
      .returned ⟨1, "seq", 6, "B", 5, 0, 40, 70, "primes=4"⟩ ∧
    (∃ r, ejecucionEspeculativa smallRuntime 1 2 3 (bytesOf "seed3") 1 10 (fun i k => i + k)
        (fun k i => k * i + 1) ⟨5, 70, 3, fun _ _ => true, 40, true, fun _ _ => true, 20⟩ =
        .returned r ∧ r.trace = 6 ∧ r.chosen = "A") ∧
    (∃ r, ejecucionSecuencial smallRuntime 1 2 3 (bytesOf "seed3") 1 10 (fun i k => i + k)
        (fun k i => k * i + 1) ⟨5, 40, 70⟩ 3 = .returned r ∧ r.trace = 6 ∧ r.chosen = "A") ∧
    (∃ r, ejecucionEspeculativa smallRuntime 1 2 7 (bytesOf "seed3") 1 10 (fun i k => i + k)
        (fun k i => k * i + 1) ⟨5, 70, 3, fun _ _ => true, 40, true, fun _ _ => true, 20⟩ =
        .returned r ∧ r.trace = 6 ∧ r.chosen = "B") ∧
    (∃ r, ejecucionSecuencial smallRuntime 1 2 7 (bytesOf "seed3") 1 10 (fun i k => i + k)
        (fun k i => k * i + 1) ⟨5, 40, 70⟩ 3 = .returned r ∧ r.trace = 6 ∧ r.chosen = "B") := by
  have htrace : CalcularTrazaDeProductoDeMatrices smallRuntime Background 2 (fun i k => i + k)
      (fun k i => k * i + 1) = .returned 6 := by decide
  have hpow : SimularProofOfWork smallRuntime Background (bytesOf "seed3") 1 3 =
      .returned ("0f9e1a666c0adeec590adedc19c8a5e9c3157ed8c354e701d6a44cfcdbca733e", 2) := by
    decide!
  have h3 := chosen_by_threshold smallRuntime 3 1 2 (bytesOf "seed3") 1 10 (fun i k => i + k)
    (fun k i => k * i + 1) ⟨5, 70, 3, fun _ _ => true, 40, true, fun _ _ => true, 20⟩
    1 2 (bytesOf "seed3") 1 10 (fun i k => i + k) (fun k i => k * i + 1) ⟨5, 40, 70⟩ 3
  have h7 := chosen_by_threshold smallRuntime 7 1 2 (bytesOf "seed3") 1 10 (fun i k => i + k)
    (fun k i => k * i + 1) ⟨5, 70, 3, fun _ _ => true, 40, true, fun _ _ => true, 20⟩
    1 2 (bytesOf "seed3") 1 10 (fun i k => i + k) (fun k i => k * i + 1) ⟨5, 40, 70⟩ 3
  refine ⟨by decide!, by decide!, by decide!, by decide!, ?_, ?_, ?_, ?_⟩
  · obtain ⟨r, hr, ht, hc⟩ := h3.2.2.2.1 6 htrace (by decide) (by decide)
    exact ⟨r, hr, ht, hc.trans (if_pos (by decide))⟩
  · exact h3.2.2.2.2.2.2 6 _ 2 htrace (by decide) hpow
  · obtain ⟨r, hr, ht, hc⟩ := h7.2.2.2.1 6 htrace (by decide) (by decide)
    exact ⟨r, hr, ht, hc.trans (if_neg (by decide))⟩
  · exact h7.2.2.2.2.2.1 6 htrace (by decide)

set_option maxRecDepth 100000 in
/-- Witness for C6: trace 6, seed `"seed3"`, difficulty 1.  With the threshold
3 branch A returns nonce 2 after 40 ns, and whatever happens to branch B only
`tB` changes; with the threshold 7 branch B returns 4 primes after 20 ns, and
whatever happens to branch A only `tA` changes. -/
theorem salvage_changes_only_loser_elapsed_witness :
    (∃ r1, ejecucionEspeculativa smallRuntime 1 2 3 (bytesOf "seed3") 1 10 (fun i k => i + k)
        (fun k i => k * i + 1) ⟨5, 70, 3, Background, 40, false, Background, 20⟩ =
        .returned r1 ∧
      r1 = ⟨1, "spec", 6, "A", 5, 40, 0, 70, "nonce=2"⟩ ∧
      ∀ (ctxB : Context) (arrivedB : Bool) (durB : Int), ∃ r2,
        ejecucionEspeculativa smallRuntime 1 2 3 (bytesOf "seed3") 1 10 (fun i k => i + k)
          (fun k i => k * i + 1) ⟨5, 70, 3, Background, 40, arrivedB, ctxB, durB⟩ =
          .returned r2 ∧
        r2.chosen = r1.chosen ∧ r2.extra = r1.extra ∧ r2.tA = r1.tA ∧
        r2 = { r1 with tB := r2.tB }) ∧
    (∃ r1, ejecucionEspeculativa smallRuntime 1 2 7 (bytesOf "seed3") 1 10 (fun i k => i + k)
        (fun k i => k * i + 1) ⟨5, 70, 3, fun _ _ => true, 40, true, Background, 20⟩ =
        .returned r1 ∧
      r1 = ⟨1, "spec", 6, "B", 5, 40, 20, 70, "primes=4"⟩ ∧
      ∀ (ctxA : Context) (stepsA : Nat) (durA : Int), ∃ r2,
        ejecucionEspeculativa smallRuntime 1 2 7 (bytesOf "seed3") 1 10 (fun i k => i + k)
          (fun k i => k * i + 1) ⟨5, 70, stepsA, ctxA, durA, true, Background, 20⟩ =
          .returned r2 ∧
        r2.chosen = r1.chosen ∧ r2.extra = r1.extra ∧ r2.tB = r1.tB ∧
        r2 = { r1 with tA := r2.tA }) := by
  have hA : ejecucionEspeculativa smallRuntime 1 2 3 (bytesOf "seed3") 1 10 (fun i k => i + k)
      (fun k i => k * i + 1) ⟨5, 70, 3, Background, 40, false, Background, 20⟩ =
      .returned ⟨1, "spec", 6, "A", 5, 40, 0, 70, "nonce=2"⟩ := by decide!
  have hB : ejecucionEspeculativa smallRuntime 1 2 7 (bytesOf "seed3") 1 10 (fun i k => i + k)
      (fun k i => k * i + 1) ⟨5, 70, 3, fun _ _ => true, 40, true, Background, 20⟩ =
      .returned ⟨1, "spec", 6, "B", 5, 40, 20, 70, "primes=4"⟩ := by decide!
  exact ⟨⟨_, hA, rfl,
      ((salvage_changes_only_loser_elapsed smallRuntime 1 2 3 (bytesOf "seed3") 1 10
        (fun i k => i + k) (fun k i => k * i + 1)
        ⟨5, 70, 3, Background, 40, false, Background, 20⟩).1 _ hA).1 rfl⟩,
    ⟨_, hB, rfl,
      ((salvage_changes_only_loser_elapsed smallRuntime 1 2 7 (bytesOf "seed3") 1 10
        (fun i k => i + k) (fun k i => k * i + 1)
        ⟨5, 70, 3, fun _ _ => true, 40, true, Background, 20⟩).1 _ hB).2 rfl⟩⟩

set_option maxRecDepth 100000 in
/-- Witness for C7: trace 6, seed `"seed3"`, difficulty 1.  With the threshold
3, branch A has not returned after two iterations when the timer ends the
read of `chA`, and branch B has delivered its result; with the threshold 7
the result of branch B has not arrived. -/
theorem timeout_marker_witness :
    ejecucionEspeculativa smallRuntime 1 2 3 (bytesOf "seed3") 1 10 (fun i k => i + k)
        (fun k i => k * i + 1) ⟨5, 70, 2, Background, 40, true, Background, 20⟩ =
      .returned ⟨1, "spec", 6, "A", 5, 0, 20, 70, "timeout_waiting_A"⟩ ∧
    ejecucionEspeculativa smallRuntime 1 2 7 (bytesOf "seed3") 1 10 (fun i k => i + k)
        (fun k i => k * i + 1) ⟨5, 70, 3, fun _ _ => true, 40, false, Background, 20⟩ =
      .returned ⟨1, "spec", 6, "B", 5, 40, 0, 70, "timeout_waiting_B"⟩ ∧
    (∃ r, ejecucionEspeculativa smallRuntime 1 2 3 (bytesOf "seed3") 1 10 (fun i k => i + k)
        (fun k i => k * i + 1) ⟨5, 70, 2, Background, 40, true, Background, 20⟩ =
        .returned r ∧
      r.chosen = "A" ∧ r.extra = "timeout_waiting_A" ∧ r.tA = 0) ∧
    (∃ r, ejecucionEspeculativa smallRuntime 1 2 7 (bytesOf "seed3") 1 10 (fun i k => i + k)
        (fun k i => k * i + 1) ⟨5, 70, 3, fun _ _ => true, 40, false, Background, 20⟩ =
        .returned r ∧
      r.chosen = "B" ∧ r.extra = "timeout_waiting_B" ∧ r.tB = 0) := by
  have htrace : CalcularTrazaDeProductoDeMatrices smallRuntime Background 2 (fun i k => i + k)
      (fun k i => k * i + 1) = .returned 6 := by decide
  have hpow : SimularProofOfWork smallRuntime Background (bytesOf "seed3") 1 2 =
      .outOfFuel := by decide!
  exact ⟨by decide!, by decide!,
    (timeout_marker smallRuntime 1 2 3 (bytesOf "seed3") 1 10 (fun i k => i + k)
      (fun k i => k * i + 1) ⟨5, 70, 2, Background, 40, true, Background, 20⟩).1 6 htrace
      (by decide) hpow,
    (timeout_marker smallRuntime 1 2 7 (bytesOf "seed3") 1 10 (fun i k => i + k)
      (fun k i => k * i + 1) ⟨5, 70, 3, fun _ _ => true, 40, false, Background, 20⟩).2.1 6
      htrace (by decide) (by decide) (by decide) rfl⟩

/-! ## Further properties -/

/-- `EncontrarPrimos` returns under every token and for every bound, and
every element of the returned slice, partial or complete, is a prime `p`
with `2 ≤ p ≤ max`. -/
theorem EncontrarPrimos_total (ctx : Context) (max : Int) :
    ∃ primes : List Int, EncontrarPrimos ctx max = .returned primes ∧
      ∀ p ∈ primes, 2 ≤ p ∧ p ≤ max ∧ Nat.Prime p.toNat := by
  obtain ⟨r, hr⟩ := EncontrarPrimos_returns ctx max
  obtain ⟨c, hc⟩ := EncontrarPrimos_returns Background max
  obtain ⟨hmem, _⟩ := EncontrarPrimosLoop_background max (max.toNat + 1) 2 [] c (le_refl _) hc
  have hpre := EncontrarPrimosLoop_prefix ctx max (max.toNat + 1) 2 [] r c (le_refl _) hr hc
  refine ⟨r, hr, fun p hp => ?_⟩
  rcases (hmem p).mp (hpre.subset hp) with h | h
  · simp at h
  · exact h

/-- `CalcularTrazaDeProductoDeMatrices` returns under every token when the
dimension is not negative and its matrices can be allocated, and panics (in
`make`) otherwise; a dimension above `2^48` cannot be allocated in any run. -/
theorem CalcularTraza_total (rt : Runtime) (ctx : Context) (n : Int)
    (m1 m2 : Int → Int → Int) :
    (0 ≤ n → n ≤ rt.maxDim →
      ∃ t, CalcularTrazaDeProductoDeMatrices rt ctx n m1 m2 = .returned t) ∧
    (n < 0 ∨ (rt.maxDim : Int) < n →
      CalcularTrazaDeProductoDeMatrices rt ctx n m1 m2 = .panicked) ∧
    ((maxAlloc : Int) < n → CalcularTrazaDeProductoDeMatrices rt ctx n m1 m2 = .panicked) := by
  refine ⟨?_, CalcularTraza_panicked rt ctx n m1 m2, ?_⟩
  · intro hn hfit
    obtain ⟨k, rfl⟩ : ∃ k : Nat, n = k := ⟨n.toNat, by omega⟩
    exact CalcularTraza_returns rt ctx k (by omega) m1 m2
  · intro h
    exact CalcularTraza_panicked rt ctx n m1 m2 (Or.inr (maxDim_lt_of_maxAlloc_lt rt n h))

/-- In a sequential run only the chosen branch runs: the elapsed field of
the other branch is zero, and that of the chosen branch is the duration the
branch returned. -/
theorem ejecucionSecuencial_other_branch_zero (rt : Runtime) (runID n umbral : Int)
    (powData : List UInt8) (powDiff primesMax : Int) (m1 m2 : Int → Int → Int)
    (clock : SeqClock) (fuel : Nat) (r : RunRecord)
    (h : ejecucionSecuencial rt runID n umbral powData powDiff primesMax m1 m2 clock fuel =
      .returned r) :
    (r.chosen = "A" → r.tB = 0 ∧ r.tA = clock.dBranch) ∧
    (r.chosen = "B" → r.tA = 0 ∧ r.tB = clock.dBranch) ∧
    (r.chosen = "A" ∨ r.chosen = "B") := by
  unfold ejecucionSecuencial at h
  cases ht : CalcularTrazaDeProductoDeMatrices rt Background n m1 m2 with
  | returned t =>
    simp only [ht] at h
    by_cases hge : t ≥ umbral
    · simp only [if_pos hge] at h
      cases hp : SimularProofOfWork rt Background powData powDiff fuel with
      | returned v =>
        obtain ⟨hash, nonce⟩ := v
        simp only [hp] at h
        injection h with h
        subst h
        simp
      | panicked => simp [hp] at h
      | outOfFuel => simp [hp] at h
    · simp only [if_neg hge] at h
      cases hp : EncontrarPrimos Background primesMax with
      | returned primes =>
        simp only [hp] at h
        injection h with h
        subst h
        simp
      | panicked => simp [hp] at h
      | outOfFuel => simp [hp] at h
  | panicked => simp [ht] at h
  | outOfFuel => simp [ht] at h

/-- An instance: trace 6 below the threshold 7, so branch B runs with bound 10. -/
theorem ejecucionSecuencial_other_branch_zero_witness :
    ejecucionSecuencial smallRuntime 1 2 7 (bytesOf "seed3") 1 10 (fun i k => i + k)
      (fun k i => k * i + 1) ⟨5, 40, 70⟩ 3 =
      .returned ⟨1, "seq", 6, "B", 5, 0, 40, 70, "primes=4"⟩ ∧
    (⟨1, "seq", 6, "B", 5, 0, 40, 70, "primes=4"⟩ : RunRecord).tA = 0 ∧
    (⟨1, "seq", 6, "B", 5, 0, 40, 70, "primes=4"⟩ : RunRecord).tB = 40 :=
  have hrun : ejecucionSecuencial smallRuntime 1 2 7 (bytesOf "seed3") 1 10 (fun i k => i + k)
      (fun k i => k * i + 1) ⟨5, 40, 70⟩ 3 =
      .returned ⟨1, "seq", 6, "B", 5, 0, 40, 70, "primes=4"⟩ := by decide
  ⟨hrun, (ejecucionSecuencial_other_branch_zero smallRuntime 1 2 7 (bytesOf "seed3") 1 10
    (fun i k => i + k) (fun k i => k * i + 1) ⟨5, 40, 70⟩ 3 _ hrun).2.1 rfl⟩

/-- Both execution modes panic, under every clock and scheduler, when the
dimension is above `2^48`: `make` is reached before anything is recorded. -/
theorem ejecucion_huge_dimension (rt : Runtime) (runID n umbral : Int) (powData : List UInt8)
    (powDiff primesMax : Int) (m1 m2 : Int → Int → Int) (env : SpecEnv) (clock : SeqClock)
    (fuel : Nat) (hn : (maxAlloc : Int) < n) :
    ejecucionEspeculativa rt runID n umbral powData powDiff primesMax m1 m2 env = .panicked ∧
    ejecucionSecuencial rt runID n umbral powData powDiff primesMax m1 m2 clock fuel =
      .panicked := by
  have hp := CalcularTraza_panicked rt Background n m1 m2
    (Or.inr (maxDim_lt_of_maxAlloc_lt rt n hn))
  constructor
  · simp only [ejecucionEspeculativa, hp]
  · simp only [ejecucionSecuencial, hp]

/-- An instance: the dimension `2^62`. -/
theorem ejecucion_huge_dimension_witness :
    ((maxAlloc : Int) < 4611686018427387904) ∧
    ejecucionEspeculativa smallRuntime 1 4611686018427387904 3 (bytesOf "seed3") 1 10
      (fun i k => i + k) (fun k i => k * i + 1)
      ⟨5, 70, 3, Background, 40, false, Background, 20⟩ = .panicked :=
  ⟨by decide, (ejecucion_huge_dimension smallRuntime 1 4611686018427387904 3 (bytesOf "seed3")
    1 10 (fun i k => i + k) (fun k i => k * i + 1)
    ⟨5, 70, 3, Background, 40, false, Background, 20⟩ ⟨5, 40, 70⟩ 3 (by decide)).1⟩

/-- A negative difficulty makes `SimularProofOfWork` panic in
`strings.Repeat`, whatever the token and the seed. -/
theorem SimularProofOfWork_negative_difficulty (rt : Runtime) (ctx : Context)
    (data : List UInt8) (d : Int) (fuel : Nat) (hd : d < 0) :
    SimularProofOfWork rt ctx data d fuel = .panicked :=
  SimularProofOfWork_panicked rt ctx data d fuel (Or.inl hd)

/-- An instance: difficulty `-1`. -/
theorem SimularProofOfWork_negative_difficulty_witness :
    ((-1 : Int) < 0) ∧
    SimularProofOfWork smallRuntime Background (bytesOf "seed3") (-1) 3 = .panicked :=
  ⟨by decide,
    SimularProofOfWork_negative_difficulty smallRuntime Background (bytesOf "seed3") (-1) 3
      (by decide)⟩

end Tarea2
